import Mathlib

/-!
Shallow embedding of the p4est quadrant algebra (file src/p8est_search.h of the
repository, which contains the generic `p4est_bits` implementation compiled in
2D, and in 3D under the `P4_TO_P8` macro).

Machine integers are modelled as follows.
A `p4est_qcoord_t` (a 32-bit signed integer) is represented by its two's
complement bit pattern, a `Nat` smaller than `2^32`; the signed value of a
pattern is recovered by `toVal`.  All C bitwise operations (`^`, `&`, `~`,
shifts) act on the pattern exactly as the hardware does.  Signed arithmetic
and comparisons go through `toVal` into `Int`, with wraparound modelled
explicitly where the source relies on it.  Levels are `Nat`.

Constants: `P4EST_MAXLEVEL`, `P4EST_QMAXLEVEL`, `P4EST_ROOT_LEN` and the 3D
counterparts are declared in p4est.h / p8est.h, which are not part of the
sources in src/.  Modelled from the spec: the spec fixes `level ∈ [0,
MAXLEVEL]`, the root domain length `2^MAXLEVEL`, the side length
`2^(MAXLEVEL - l)`, and a 3x3 extended domain; the numeric values 30 (2D)
and 19 (3D) are the repository's published constants (the 3D linear id of a
level-19 quadrant needs 3 * 21 = 63 bits of a uint64).
`SC_LOG2_32` comes from the external libsc dependency: it returns the index
of the highest set bit of a 32-bit value, and -1 for the value 0.
-/

/-- Signed value of a 32-bit two's complement pattern. -/
def toVal (n : Nat) : Int :=
  if n < 2 ^ 31 then (n : Int) else (n : Int) - 2 ^ 32

/-- Bitwise complement on 32-bit patterns (the C `~` operator). -/
def not32 (n : Nat) : Nat := (2 ^ 32 - 1) ^^^ n

/-- The libsc macro SC_LOG2_32: highest set bit index, -1 on zero input. -/
def SC_LOG2_32 (n : Nat) : Int :=
  if n = 0 then -1 else (Nat.log2 n : Int)


namespace P4est

def P4EST_DIM : Nat := 2
def P4EST_CHILDREN : Nat := 4
def P4EST_MAXLEVEL : Nat := 30
def P4EST_QMAXLEVEL : Nat := 29
def P4EST_ROOT_LEN : Nat := 2 ^ 30

/-- The side length of a quadrant at the given level (macro P4EST_QUADRANT_LEN). -/
def P4EST_QUADRANT_LEN (l : Nat) : Nat := 2 ^ (30 - l)

/-- A 2D quadrant: two 32-bit coordinate patterns and a refinement level. -/
structure Quadrant where
  x : Nat
  y : Nat
  level : Nat
deriving DecidableEq

/-- p4est_quadrant_is_inside_root from the source. -/
def p4est_quadrant_is_inside_root (q : Quadrant) : Bool :=
  decide (0 ≤ toVal q.x) && decide (toVal q.x < (P4EST_ROOT_LEN : Int)) &&
  decide (0 ≤ toVal q.y) && decide (toVal q.y < (P4EST_ROOT_LEN : Int))

/-- p4est_quadrant_is_inside_3x3 from the source. -/
def p4est_quadrant_is_inside_3x3 (q : Quadrant) : Bool :=
  decide (-(P4EST_ROOT_LEN : Int) ≤ toVal q.x) &&
  decide (toVal q.x ≤ (P4EST_ROOT_LEN : Int) + ((P4EST_ROOT_LEN : Int) - 1)) &&
  decide (-(P4EST_ROOT_LEN : Int) ≤ toVal q.y) &&
  decide (toVal q.y ≤ (P4EST_ROOT_LEN : Int) + ((P4EST_ROOT_LEN : Int) - 1))

/-- p4est_quadrant_is_valid from the source (level bounds, alignment, inside root). -/
def p4est_quadrant_is_valid (q : Quadrant) : Bool :=
  decide (q.level ≤ P4EST_QMAXLEVEL) &&
  decide (q.x &&& (P4EST_QUADRANT_LEN q.level - 1) = 0) &&
  decide (q.y &&& (P4EST_QUADRANT_LEN q.level - 1) = 0) &&
  p4est_quadrant_is_inside_root q

/-- p4est_quadrant_is_extended from the source (alignment, inside the 3x3 domain). -/
def p4est_quadrant_is_extended (q : Quadrant) : Bool :=
  decide (q.level ≤ P4EST_QMAXLEVEL) &&
  decide (q.x &&& (P4EST_QUADRANT_LEN q.level - 1) = 0) &&
  decide (q.y &&& (P4EST_QUADRANT_LEN q.level - 1) = 0) &&
  p4est_quadrant_is_inside_3x3 q

/-- p4est_quadrant_is_node from the source. -/
def p4est_quadrant_is_node (q : Quadrant) (inside : Bool) : Bool :=
  decide (q.level = P4EST_MAXLEVEL) &&
  decide (0 ≤ toVal q.x) &&
  decide (toVal q.x ≤ (P4EST_ROOT_LEN : Int) - (if inside then 1 else 0)) &&
  decide (0 ≤ toVal q.y) &&
  decide (toVal q.y ≤ (P4EST_ROOT_LEN : Int) - (if inside then 1 else 0)) &&
  (decide (q.x &&& (2 ^ (P4EST_MAXLEVEL - P4EST_QMAXLEVEL) - 1) = 0) ||
    (inside && decide (q.x = P4EST_ROOT_LEN - 1))) &&
  (decide (q.y &&& (2 ^ (P4EST_MAXLEVEL - P4EST_QMAXLEVEL) - 1) = 0) ||
    (inside && decide (q.y = P4EST_ROOT_LEN - 1)))

/-- p4est_quadrant_is_equal from the source: same level and coordinates. -/
def p4est_quadrant_is_equal (q1 q2 : Quadrant) : Bool :=
  decide (q1.level = q2.level) && decide (q1.x = q2.x) && decide (q1.y = q2.y)

/-- p4est_quadrant_compare from the source.  The `p4est_qcoord_t` xors inherit
the sign bits; SC_LOG2_32 is applied to them as unsigned 32-bit values, and the
`int64_t` values p1, p2 add `2^(P4EST_MAXLEVEL+2)` to negative coordinates. -/
def p4est_quadrant_compare (q1 q2 : Quadrant) : Int :=
  let exclorx := q1.x ^^^ q2.x
  let exclory := q1.y ^^^ q2.y
  if exclory = 0 ∧ exclorx = 0 then
    (q1.level : Int) - (q2.level : Int)
  else
    let log2x := SC_LOG2_32 exclorx
    let log2y := SC_LOG2_32 exclory
    if log2y ≥ log2x then
      let p1 := toVal q1.y + (if 0 ≤ toVal q1.y then 0 else 2 ^ (P4EST_MAXLEVEL + 2))
      let p2 := toVal q2.y + (if 0 ≤ toVal q2.y then 0 else 2 ^ (P4EST_MAXLEVEL + 2))
      if p1 - p2 = 0 then 0 else if p1 - p2 < 0 then -1 else 1
    else
      let p1 := toVal q1.x + (if 0 ≤ toVal q1.x then 0 else 2 ^ (P4EST_MAXLEVEL + 2))
      let p2 := toVal q2.x + (if 0 ≤ toVal q2.x then 0 else 2 ^ (P4EST_MAXLEVEL + 2))
      if p1 - p2 = 0 then 0 else if p1 - p2 < 0 then -1 else 1

/-- p4est_quadrant_parent from the source: clear the child bit on each axis,
decrement the level.  The precondition (extended validity, level > 0) is the
separate predicate below. -/
def p4est_quadrant_parent (q : Quadrant) : Quadrant :=
  ⟨q.x &&& not32 (P4EST_QUADRANT_LEN q.level),
   q.y &&& not32 (P4EST_QUADRANT_LEN q.level),
   q.level - 1⟩

/-- The assertions at the head of p4est_quadrant_parent. -/
def p4est_quadrant_parent_precond (q : Quadrant) : Prop :=
  p4est_quadrant_is_extended q = true ∧ 0 < q.level

/-- p4est_quadrant_ancestor_id from the source. -/
def p4est_quadrant_ancestor_id (q : Quadrant) (level : Nat) : Nat :=
  if level = 0 then 0
  else
    (if q.x &&& P4EST_QUADRANT_LEN level ≠ 0 then 1 else 0) |||
    (if q.y &&& P4EST_QUADRANT_LEN level ≠ 0 then 2 else 0)

/-- p4est_quadrant_child_id from the source. -/
def p4est_quadrant_child_id (q : Quadrant) : Nat :=
  p4est_quadrant_ancestor_id q q.level

/-- The C statement `x = quadrant->x >> (P4EST_MAXLEVEL - level)` in
p4est_quadrant_linear_id: an arithmetic right shift of the signed coordinate
(preserving high bits of negative numbers), stored into a uint64. -/
def shrA (x s : Nat) : Nat :=
  (((toVal x).fdiv (2 ^ s)) % (2 ^ 64 : Int)).toNat

/-- The bit-interleaving loop of p4est_quadrant_linear_id (2D): for each
i below the iteration count, bit i of x goes to id bit 2i and bit i of y
goes to id bit 2i+1. -/
def linidAux (x y : Nat) : Nat → Nat
  | 0 => 0
  | i + 1 => linidAux x y i ||| ((x &&& 2 ^ i) <<< i) ||| ((y &&& 2 ^ i) <<< (i + 1))

/-- p4est_quadrant_linear_id from the source (2D): interleave the top
`level + 2` bits of the arithmetically shifted coordinates. -/
def p4est_quadrant_linear_id (q : Quadrant) (level : Nat) : Nat :=
  linidAux (shrA q.x (P4EST_MAXLEVEL - level)) (shrA q.y (P4EST_MAXLEVEL - level))
    (level + 2)

/-- The x-deinterleaving loop of p4est_quadrant_set_morton:
`quadrant->x |= (id & (1 << 2i)) >> i` for each i below the count. -/
def demortonX (id : Nat) : Nat → Nat
  | 0 => 0
  | i + 1 => demortonX id i ||| ((id &&& 2 ^ (2 * i)) >>> i)

/-- The y-deinterleaving loop of p4est_quadrant_set_morton:
`quadrant->y |= (id & (1 << (2i+1))) >> (i+1)`. -/
def demortonY (id : Nat) : Nat → Nat
  | 0 => 0
  | i + 1 => demortonY id i ||| ((id &&& 2 ^ (2 * i + 1)) >>> (i + 1))

/-- p4est_quadrant_set_morton from the source (2D): de-interleave the id,
then shift each coordinate up to the full width.  The final left shift of the
32-bit coordinate wraps modulo 2^32 (in 2D, `P4EST_MAXLEVEL + 2 = 32`, so the
sign correction of the 3D build is subsumed by the word width). -/
def p4est_quadrant_set_morton (level : Nat) (id : Nat) : Quadrant :=
  ⟨(demortonX id (level + 2) <<< (P4EST_MAXLEVEL - level)) % 2 ^ 32,
   (demortonY id (level + 2) <<< (P4EST_MAXLEVEL - level)) % 2 ^ 32,
   level⟩

/-- p4est_quadrant_is_next from the source: bit-tricked successor test.
The uint64 increment `i1 + 1` cannot wrap for inputs whose level is at most
P4EST_QMAXLEVEL (the id then has at most 62 bits), so it is Nat addition. -/
def p4est_quadrant_is_next (q r : Quadrant) : Bool :=
  if r.level < q.level then
    let mask := P4EST_QUADRANT_LEN r.level - P4EST_QUADRANT_LEN q.level
    if q.x &&& mask ≠ mask ∨ q.y &&& mask ≠ mask then false
    else decide (p4est_quadrant_linear_id q r.level + 1 = p4est_quadrant_linear_id r r.level)
  else
    decide (p4est_quadrant_linear_id q q.level + 1 = p4est_quadrant_linear_id r q.level)

/-- The climbing loop of p4est_quadrant_is_next_D: walk `a` up one level at a
time while it is deeper than `blevel`, failing unless `a` is the
maximal-index child at each step.  The fuel bounds the iteration count; it is
spent one unit per parent step, and the level decreases in lockstep, so with
fuel `a.level` the `none` of exhaustion is never taken. -/
def nextDclimb (fuel : Nat) (a : Quadrant) (blevel : Nat) : Option Quadrant :=
  if blevel < a.level then
    if p4est_quadrant_child_id a ≠ P4EST_CHILDREN - 1 then none
    else
      match fuel with
      | 0 => none
      | f + 1 => nextDclimb f (p4est_quadrant_parent a) blevel
  else some a

/-- p4est_quadrant_is_next_D from the source: compare first, then climb
level by level, then compare linear ids at the common level. -/
def p4est_quadrant_is_next_D (q r : Quadrant) : Bool :=
  if 0 ≤ p4est_quadrant_compare q r then false
  else
    match nextDclimb q.level q r.level with
    | none => false
    | some a =>
      decide (p4est_quadrant_linear_id a a.level + 1 = p4est_quadrant_linear_id r a.level)

/-- p4est_nearest_common_ancestor from the source: closed form via the
highest differing bit over both axes. -/
def p4est_nearest_common_ancestor (q1 q2 : Quadrant) : Quadrant :=
  let maxclor := (q1.x ^^^ q2.x) ||| (q1.y ^^^ q2.y)
  let maxlevel : Nat := (SC_LOG2_32 maxclor + 1).toNat
  ⟨q1.x &&& not32 (2 ^ maxlevel - 1),
   q1.y &&& not32 (2 ^ maxlevel - 1),
   (min ((P4EST_MAXLEVEL : Int) - (maxlevel : Int))
      (min (q1.level : Int) (q2.level : Int))).toNat⟩

/-- The first stage of p4est_nearest_common_ancestor_D: promote `s` to its
parent while it is deeper than the target level.  Fuel as in `nextDclimb`. -/
def toLevelLoop : Nat → Quadrant → Nat → Quadrant
  | 0, s, _ => s
  | f + 1, s, t => if t < s.level then toLevelLoop f (p4est_quadrant_parent s) t else s

/-- The second stage of p4est_nearest_common_ancestor_D: promote both
quadrants simultaneously until they are equal.  `none` models the abort of
`p4est_quadrant_parent` on a level-0 quadrant (which the C loop reaches
exactly when the two quadrants have no common ancestor). -/
def ncaDLoop2 (fuel : Nat) (s1 s2 : Quadrant) : Option Quadrant :=
  if p4est_quadrant_is_equal s1 s2 then some s1
  else
    match fuel with
    | 0 => none
    | f + 1 => ncaDLoop2 f (p4est_quadrant_parent s1) (p4est_quadrant_parent s2)

/-- p4est_nearest_common_ancestor_D from the source: iterative variant. -/
def p4est_nearest_common_ancestor_D (q1 q2 : Quadrant) : Option Quadrant :=
  let s1 := toLevelLoop q1.level q1 q2.level
  let s2 := toLevelLoop q2.level q2 s1.level
  ncaDLoop2 s1.level s1 s2

/-- p4est_quadrant_children from the source (2D-only function). -/
def p4est_quadrant_children (q : Quadrant) :
    Quadrant × Quadrant × Quadrant × Quadrant :=
  let c0 : Quadrant := ⟨q.x, q.y, q.level + 1⟩
  let c1 : Quadrant := ⟨c0.x ||| P4EST_QUADRANT_LEN c0.level, c0.y, c0.level⟩
  let c2 : Quadrant := ⟨c0.x, c0.y ||| P4EST_QUADRANT_LEN c0.level, c0.level⟩
  let c3 : Quadrant := ⟨c1.x, c2.y, c0.level⟩
  (c0, c1, c2, c3)

/-- p4est_quadrant_is_family from the source (2D-only function).  The C
coordinate additions are on `p4est_qcoord_t` values; they are modelled as
exact Int arithmetic, which agrees with the C comparison outcomes on all
extended inputs (a wrapped `q0->x + inc` can never equal an extended
coordinate either). -/
def p4est_quadrant_is_family (q0 q1 q2 q3 : Quadrant) : Bool :=
  let level := q0.level
  if level = 0 ∨ level ≠ q1.level ∨ level ≠ q2.level ∨ level ≠ q3.level then false
  else
    let inc : Int := (P4EST_QUADRANT_LEN level : Int)
    decide (toVal q0.x + inc = toVal q1.x) && decide (toVal q0.y = toVal q1.y) &&
    decide (toVal q0.x = toVal q2.x) && decide (toVal q0.y + inc = toVal q2.y) &&
    decide (toVal q1.x = toVal q3.x) && decide (toVal q2.y = toVal q3.y)

/-- p4est_quadrant_is_ancestor from the source: arithmetic right shift of the
coordinate xors by `P4EST_MAXLEVEL - q.level`, requiring both to vanish. -/
def p4est_quadrant_is_ancestor (q r : Quadrant) : Bool :=
  if r.level ≤ q.level then false
  else
    decide ((toVal (q.x ^^^ r.x)).fdiv (2 ^ (P4EST_MAXLEVEL - q.level)) = 0) &&
    decide ((toVal (q.y ^^^ r.y)).fdiv (2 ^ (P4EST_MAXLEVEL - q.level)) = 0)

/-- p4est_node_clamp_inside from the source. -/
def p4est_node_clamp_inside (n : Quadrant) : Quadrant :=
  ⟨if n.x = P4EST_ROOT_LEN then P4EST_ROOT_LEN - 1 else n.x,
   if n.y = P4EST_ROOT_LEN then P4EST_ROOT_LEN - 1 else n.y,
   P4EST_MAXLEVEL⟩

/-- p4est_node_unclamp from the source. -/
def p4est_node_unclamp (n : Quadrant) : Quadrant :=
  ⟨if n.x = P4EST_ROOT_LEN - 1 then P4EST_ROOT_LEN else n.x,
   if n.y = P4EST_ROOT_LEN - 1 then P4EST_ROOT_LEN else n.y,
   n.level⟩

end P4est

namespace P8est

def P8EST_DIM : Nat := 3
def P8EST_CHILDREN : Nat := 8
def P8EST_MAXLEVEL : Nat := 19
def P8EST_QMAXLEVEL : Nat := 18
def P8EST_ROOT_LEN : Nat := 2 ^ 19

/-- The side length of an octant at the given level (macro P8EST_QUADRANT_LEN). -/
def P8EST_QUADRANT_LEN (l : Nat) : Nat := 2 ^ (19 - l)

/-- A 3D octant: three 32-bit coordinate patterns and a refinement level. -/
structure Quadrant where
  x : Nat
  y : Nat
  z : Nat
  level : Nat
deriving DecidableEq

/-- p8est_quadrant_is_inside_3x3: the 3D build of p4est_quadrant_is_inside_3x3. -/
def p8est_quadrant_is_inside_3x3 (q : Quadrant) : Bool :=
  decide (-(P8EST_ROOT_LEN : Int) ≤ toVal q.x) &&
  decide (toVal q.x ≤ (P8EST_ROOT_LEN : Int) + ((P8EST_ROOT_LEN : Int) - 1)) &&
  decide (-(P8EST_ROOT_LEN : Int) ≤ toVal q.y) &&
  decide (toVal q.y ≤ (P8EST_ROOT_LEN : Int) + ((P8EST_ROOT_LEN : Int) - 1)) &&
  decide (-(P8EST_ROOT_LEN : Int) ≤ toVal q.z) &&
  decide (toVal q.z ≤ (P8EST_ROOT_LEN : Int) + ((P8EST_ROOT_LEN : Int) - 1))

/-- p8est_quadrant_is_extended: the 3D build of p4est_quadrant_is_extended. -/
def p8est_quadrant_is_extended (q : Quadrant) : Bool :=
  decide (q.level ≤ P8EST_QMAXLEVEL) &&
  decide (q.x &&& (P8EST_QUADRANT_LEN q.level - 1) = 0) &&
  decide (q.y &&& (P8EST_QUADRANT_LEN q.level - 1) = 0) &&
  decide (q.z &&& (P8EST_QUADRANT_LEN q.level - 1) = 0) &&
  p8est_quadrant_is_inside_3x3 q

/-- p8est_quadrant_is_node: the 3D build of p4est_quadrant_is_node. -/
def p8est_quadrant_is_node (q : Quadrant) (inside : Bool) : Bool :=
  decide (q.level = P8EST_MAXLEVEL) &&
  decide (0 ≤ toVal q.x) &&
  decide (toVal q.x ≤ (P8EST_ROOT_LEN : Int) - (if inside then 1 else 0)) &&
  decide (0 ≤ toVal q.y) &&
  decide (toVal q.y ≤ (P8EST_ROOT_LEN : Int) - (if inside then 1 else 0)) &&
  decide (0 ≤ toVal q.z) &&
  decide (toVal q.z ≤ (P8EST_ROOT_LEN : Int) - (if inside then 1 else 0)) &&
  (decide (q.x &&& (2 ^ (P8EST_MAXLEVEL - P8EST_QMAXLEVEL) - 1) = 0) ||
    (inside && decide (q.x = P8EST_ROOT_LEN - 1))) &&
  (decide (q.y &&& (2 ^ (P8EST_MAXLEVEL - P8EST_QMAXLEVEL) - 1) = 0) ||
    (inside && decide (q.y = P8EST_ROOT_LEN - 1))) &&
  (decide (q.z &&& (2 ^ (P8EST_MAXLEVEL - P8EST_QMAXLEVEL) - 1) = 0) ||
    (inside && decide (q.z = P8EST_ROOT_LEN - 1)))

/-- p8est_quadrant_is_equal: the 3D build of p4est_quadrant_is_equal. -/
def p8est_quadrant_is_equal (q1 q2 : Quadrant) : Bool :=
  decide (q1.level = q2.level) && decide (q1.x = q2.x) && decide (q1.y = q2.y) &&
  decide (q1.z = q2.z)

/-- p8est_quadrant_compare: the 3D build of p4est_quadrant_compare. -/
def p8est_quadrant_compare (q1 q2 : Quadrant) : Int :=
  let exclorx := q1.x ^^^ q2.x
  let exclory := q1.y ^^^ q2.y
  let exclorz := q1.z ^^^ q2.z
  if exclory = 0 ∧ exclorx = 0 ∧ exclorz = 0 then
    (q1.level : Int) - (q2.level : Int)
  else
    let log2x := SC_LOG2_32 exclorx
    let log2y := SC_LOG2_32 exclory
    let log2z := SC_LOG2_32 exclorz
    if log2z ≥ log2x ∧ log2z ≥ log2y then
      let p1 := toVal q1.z + (if 0 ≤ toVal q1.z then 0 else 2 ^ (P8EST_MAXLEVEL + 2))
      let p2 := toVal q2.z + (if 0 ≤ toVal q2.z then 0 else 2 ^ (P8EST_MAXLEVEL + 2))
      if p1 - p2 = 0 then 0 else if p1 - p2 < 0 then -1 else 1
    else if log2y ≥ log2x then
      let p1 := toVal q1.y + (if 0 ≤ toVal q1.y then 0 else 2 ^ (P8EST_MAXLEVEL + 2))
      let p2 := toVal q2.y + (if 0 ≤ toVal q2.y then 0 else 2 ^ (P8EST_MAXLEVEL + 2))
      if p1 - p2 = 0 then 0 else if p1 - p2 < 0 then -1 else 1
    else
      let p1 := toVal q1.x + (if 0 ≤ toVal q1.x then 0 else 2 ^ (P8EST_MAXLEVEL + 2))
      let p2 := toVal q2.x + (if 0 ≤ toVal q2.x then 0 else 2 ^ (P8EST_MAXLEVEL + 2))
      if p1 - p2 = 0 then 0 else if p1 - p2 < 0 then -1 else 1

/-- p8est_quadrant_parent: the 3D build of p4est_quadrant_parent. -/
def p8est_quadrant_parent (q : Quadrant) : Quadrant :=
  ⟨q.x &&& not32 (P8EST_QUADRANT_LEN q.level),
   q.y &&& not32 (P8EST_QUADRANT_LEN q.level),
   q.z &&& not32 (P8EST_QUADRANT_LEN q.level),
   q.level - 1⟩

/-- p8est_quadrant_is_sibling: the 3D build of p4est_quadrant_is_sibling.
The source guards its z-axis mask check by `#ifdef P4_To_P8` (lower-case `o`),
a macro that is never defined, so the compiled 3D code performs no z-axis
mask check; this definition reproduces that faithfully. -/
def p8est_quadrant_is_sibling (q1 q2 : Quadrant) : Bool :=
  if q1.level = 0 then false
  else
    let exclorx := q1.x ^^^ q2.x
    let exclory := q1.y ^^^ q2.y
    let exclorz := q1.z ^^^ q2.z
    if exclorx = 0 ∧ exclory = 0 ∧ exclorz = 0 then false
    else
      decide (q1.level = q2.level) &&
      decide (exclorx &&& not32 (P8EST_QUADRANT_LEN q1.level) = 0) &&
      decide (exclory &&& not32 (P8EST_QUADRANT_LEN q1.level) = 0)

/-- p8est_quadrant_is_sibling_D: the 3D build of p4est_quadrant_is_sibling_D,
the reference predicate (unequal, level > 0, equal parents). -/
def p8est_quadrant_is_sibling_D (q1 q2 : Quadrant) : Bool :=
  if q1.level = 0 then false
  else if p8est_quadrant_is_equal q1 q2 then false
  else p8est_quadrant_is_equal (p8est_quadrant_parent q1) (p8est_quadrant_parent q2)

end P8est

section ClaimSpecs

/-- The sign-preserving transform named by the spec: add `2^(MAXLEVEL+2)` to a
negative coordinate, then compare; `M` is the dimension's MAXLEVEL. -/
def psign (M : Nat) (a b : Nat) : Int :=
  Int.sign ((toVal a + (if toVal a < 0 then 2 ^ (M + 2) else 0)) -
    (toVal b + (if toVal b < 0 then 2 ^ (M + 2) else 0)))

/-- The three-way comparison sign exactly as the spec describes it in 2D:
identical coordinates compare by level (shallower first); otherwise the axis
whose highest differing bit position is greatest decides, ties broken y
before x, comparing through the sign-preserving transform. -/
def claimCompareSign2 (q1 q2 : P4est.Quadrant) : Int :=
  if q1.x = q2.x ∧ q1.y = q2.y then Int.sign ((q1.level : Int) - (q2.level : Int))
  else if SC_LOG2_32 (q1.y ^^^ q2.y) ≥ SC_LOG2_32 (q1.x ^^^ q2.x) then
    psign P4est.P4EST_MAXLEVEL q1.y q2.y
  else psign P4est.P4EST_MAXLEVEL q1.x q2.x

/-- The three-way comparison sign exactly as the spec describes it in 3D:
ties between axes broken z before y before x; the z axis decides when its
differing-bit position is at least both others, the y axis decides when its
position is at least x's and strictly above z's, else the x axis decides. -/
def claimCompareSign3 (q1 q2 : P8est.Quadrant) : Int :=
  if q1.x = q2.x ∧ q1.y = q2.y ∧ q1.z = q2.z then
    Int.sign ((q1.level : Int) - (q2.level : Int))
  else if SC_LOG2_32 (q1.z ^^^ q2.z) ≥ SC_LOG2_32 (q1.x ^^^ q2.x) ∧
      SC_LOG2_32 (q1.z ^^^ q2.z) ≥ SC_LOG2_32 (q1.y ^^^ q2.y) then
    psign P8est.P8EST_MAXLEVEL q1.z q2.z
  else if SC_LOG2_32 (q1.y ^^^ q2.y) ≥ SC_LOG2_32 (q1.x ^^^ q2.x) ∧
      SC_LOG2_32 (q1.y ^^^ q2.y) > SC_LOG2_32 (q1.z ^^^ q2.z) then
    psign P8est.P8EST_MAXLEVEL q1.y q2.y
  else psign P8est.P8EST_MAXLEVEL q1.x q2.x

/-- Truncation of a quadrant to a coarser level: the ancestor at level `l`
(coordinates with the low `MAXLEVEL - l` bits cleared).  Analysis helper used
to state and prove properties of the parent-iteration loops. -/
def truncAt (q : P4est.Quadrant) (l : Nat) : P4est.Quadrant :=
  ⟨(q.x >>> (30 - l)) <<< (30 - l), (q.y >>> (30 - l)) <<< (30 - l), l⟩

/-- Two (possibly virtual) quadrants lie in the same tree when they share
their level-0 ancestor cell of the 3x3 virtual domain, i.e. their coordinate
patterns agree on all bits from position MAXLEVEL upward on every axis. -/
def sameTree (q1 q2 : P4est.Quadrant) : Prop :=
  q1.x >>> 30 = q2.x >>> 30 ∧ q1.y >>> 30 = q2.y >>> 30

end ClaimSpecs


section BitHelpers

theorem toVal_of_lt {n : Nat} (h : n < 2 ^ 31) : toVal n = (n : Int) := by
  rw [toVal, if_pos h]

theorem toVal_of_ge {n : Nat} (h : 2 ^ 31 ≤ n) : toVal n = (n : Int) - 2 ^ 32 := by
  rw [toVal, if_neg (by omega)]

theorem toVal_nonneg_iff {n : Nat} (hn : n < 2 ^ 32) : 0 ≤ toVal n ↔ n < 2 ^ 31 := by
  simp only [toVal]
  split <;> omega

theorem toVal_inj {m n : Nat} (hm : m < 2 ^ 32) (hn : n < 2 ^ 32)
    (h : toVal m = toVal n) : m = n := by
  simp only [toVal] at h
  split at h <;> split at h <;> omega

theorem testBit_not32 {n : Nat} (i : Nat) :
    (not32 n).testBit i = (decide (i < 32) != n.testBit i) := by
  rw [not32, Nat.testBit_xor, Nat.testBit_two_pow_sub_one]

theorem land_eq_zero_iff_testBit {x m : Nat} :
    x &&& m = 0 ↔ ∀ i, x.testBit i = true → m.testBit i = false := by
  constructor
  · intro h i hx
    have h2 := congrArg (fun t => t.testBit i) h
    simp only [Nat.testBit_and, Nat.zero_testBit] at h2
    cases hmi : m.testBit i
    · rfl
    · rw [hx, hmi] at h2
      exact absurd h2 (by simp)
  · intro h
    apply Nat.eq_of_testBit_eq
    intro i
    simp only [Nat.testBit_and, Nat.zero_testBit]
    cases hx : x.testBit i
    · rfl
    · rw [h i hx]
      rfl

theorem land_mask_eq_zero_iff {x s : Nat} :
    x &&& (2 ^ s - 1) = 0 ↔ ∀ i, i < s → x.testBit i = false := by
  rw [land_eq_zero_iff_testBit]
  constructor
  · intro h i his
    cases hx : x.testBit i
    · rfl
    · have h2 := h i hx
      rw [Nat.testBit_two_pow_sub_one] at h2
      simp [his] at h2
  · intro h i hx
    rw [Nat.testBit_two_pow_sub_one]
    by_cases his : i < s
    · rw [h i his] at hx
      exact absurd hx (by simp)
    · simp [his]

theorem shiftRight_shiftLeft_of_aligned {x s : Nat}
    (h : ∀ i, i < s → x.testBit i = false) : (x >>> s) <<< s = x := by
  apply Nat.eq_of_testBit_eq
  intro i
  rw [Nat.testBit_shiftLeft]
  by_cases his : s ≤ i
  · simp only [his, Nat.testBit_shiftRight]
    have hsi : s + (i - s) = i := by omega
    simp [hsi]
  · rw [decide_eq_false his, Bool.false_and]
    exact (h i (by omega)).symm

theorem testBit_log2_self {n : Nat} (h : n ≠ 0) : n.testBit n.log2 = true := by
  have h1 : 2 ^ n.log2 ≤ n := Nat.log2_self_le h
  have h2 : n < 2 ^ (n.log2 + 1) := Nat.lt_log2_self
  rw [Nat.testBit_to_div_mod]
  have hdiv : n / 2 ^ n.log2 = 1 := by
    apply Nat.div_eq_of_lt_le (by simpa using h1)
    rw [Nat.pow_succ] at h2
    omega
  simp [hdiv]

theorem testBit_false_of_log2_lt {n i : Nat} (h : n.log2 < i) : n.testBit i = false := by
  apply Nat.testBit_lt_two_pow
  calc n < 2 ^ (n.log2 + 1) := Nat.lt_log2_self
  _ ≤ 2 ^ i := Nat.pow_le_pow_right (by omega) (by omega)

theorem log2_lt_of_lt_two_pow {n k : Nat} (h0 : n ≠ 0) (h : n < 2 ^ k) : n.log2 < k :=
  (Nat.log2_lt h0).mpr h

theorem lt_two_pow_of_log2_lt {n k : Nat} (h : n.log2 < k) : n < 2 ^ k := by
  by_cases h0 : n = 0
  · subst h0
    exact Nat.pos_pow_of_pos k (by omega)
  · exact (Nat.log2_lt h0).mp h

theorem testBit_ne_of_xor_log2 {u v : Nat} (h : u ≠ v) :
    u.testBit ((u ^^^ v).log2) ≠ v.testBit ((u ^^^ v).log2) := by
  have hdne : u ^^^ v ≠ 0 := fun h0 => h (Nat.xor_eq_zero.mp h0)
  have hbit := testBit_log2_self hdne
  rw [Nat.testBit_xor] at hbit
  intro hcontra
  rw [hcontra] at hbit
  simp at hbit

theorem testBit_eq_of_xor_log2_lt {u v j : Nat} (hj : (u ^^^ v).log2 < j) :
    u.testBit j = v.testBit j := by
  have hz : (u ^^^ v).testBit j = false := testBit_false_of_log2_lt hj
  rw [Nat.testBit_xor] at hz
  cases hu : u.testBit j <;> cases hv : v.testBit j <;> simp_all

/-- Comparison of two distinct naturals is decided by the bit at the highest
differing position, which is the log2 of their xor. -/
theorem lt_iff_testBit_xor_log2 {u v : Nat} (h : u ≠ v) :
    u < v ↔ v.testBit ((u ^^^ v).log2) = true := by
  have hdiff := testBit_ne_of_xor_log2 h
  have habove : ∀ j, (u ^^^ v).log2 < j → u.testBit j = v.testBit j :=
    fun j hj => testBit_eq_of_xor_log2_lt hj
  constructor
  · intro hlt
    cases hv : v.testBit ((u ^^^ v).log2)
    · exfalso
      have hu : u.testBit ((u ^^^ v).log2) = true := by
        cases hu2 : u.testBit ((u ^^^ v).log2)
        · rw [hu2, hv] at hdiff
          exact absurd rfl hdiff
        · rfl
      have hvu : v < u := Nat.lt_of_testBit _ hv hu (fun j hj => (habove j hj).symm)
      omega
    · rfl
  · intro hv
    have hu : u.testBit ((u ^^^ v).log2) = false := by
      cases hu2 : u.testBit ((u ^^^ v).log2)
      · rfl
      · rw [hu2, hv] at hdiff
        exact absurd rfl hdiff
    exact Nat.lt_of_testBit _ hu hv habove

/-- If two naturals agree on all bits above K and differ at K, then order is
decided by bit K of the right-hand side. -/
theorem lt_iff_testBit_of_agree_above {A B K : Nat}
    (hne : A.testBit K ≠ B.testBit K)
    (hab : ∀ k, K < k → A.testBit k = B.testBit k) :
    A < B ↔ B.testBit K = true := by
  constructor
  · intro hlt
    cases hB : B.testBit K
    · exfalso
      have hA : A.testBit K = true := by
        cases hA2 : A.testBit K
        · rw [hA2, hB] at hne
          exact absurd rfl hne
        · rfl
      have : B < A := Nat.lt_of_testBit K hB hA (fun j hj => (hab j hj).symm)
      omega
    · rfl
  · intro hB
    have hA : A.testBit K = false := by
      cases hA2 : A.testBit K
      · rfl
      · rw [hA2, hB] at hne
        exact absurd rfl hne
    exact Nat.lt_of_testBit K hA hB hab

theorem or_two_pow_eq_add {x k : Nat} (h : x.testBit k = false) :
    x ||| 2 ^ k = x + 2 ^ k := by
  have hmod : x % 2 ^ (k + 1) < 2 ^ k := by
    have hsplit : x % (2 ^ k * 2) = x % 2 ^ k + 2 ^ k * (x / 2 ^ k % 2) :=
      Nat.mod_mul
    have hb : x / 2 ^ k % 2 = 0 := by
      rw [Nat.testBit_to_div_mod] at h
      simpa using h
    rw [Nat.pow_succ, hsplit, hb]
    simpa using Nat.mod_lt x (y := 2 ^ k) (Nat.pos_pow_of_pos k (by omega))
  set q := x / 2 ^ (k + 1) with hq
  set r := x % 2 ^ (k + 1) with hr
  have hrlt : r < 2 ^ (k + 1) := by
    rw [hr]
    exact Nat.mod_lt x (Nat.pos_pow_of_pos _ (by omega))
  have hx : x = 2 ^ (k + 1) * q + r := by
    rw [hq, hr]
    exact (Nat.div_add_mod x (2 ^ (k + 1))).symm
  have h1 : x = 2 ^ (k + 1) * q ||| r := by
    rw [hx]
    exact Nat.mul_add_lt_is_or hrlt q
  have h2 : x + 2 ^ k = 2 ^ (k + 1) * q ||| (r + 2 ^ k) := by
    conv_lhs => rw [hx]
    rw [Nat.add_assoc]
    exact Nat.mul_add_lt_is_or (by rw [Nat.pow_succ]; omega) q
  have h3 : r + 2 ^ k = 2 ^ k ||| r := by
    have h4 := Nat.mul_add_lt_is_or (i := k) hmod 1
    rw [Nat.mul_one] at h4
    rw [Nat.add_comm] at h4
    exact h4
  rw [h2, h3]
  conv_lhs => rw [h1]
  rw [Nat.or_assoc, Nat.or_comm r (2 ^ k), ← Nat.or_assoc]

end BitHelpers


section Claim10

open P4est

/-- C10: p4est_node_clamp_inside maps any unclamped-valid node to a
clamped-valid node, and p4est_node_unclamp restores the original node
exactly, so clamping followed by unclamping is the identity on nodes
satisfying p4est_quadrant_is_node with inside = false. -/
theorem p4est_node_clamp_unclamp_roundtrip :
    ∀ n : Quadrant, n.x < 2 ^ 32 → n.y < 2 ^ 32 →
      p4est_quadrant_is_node n false = true →
      p4est_quadrant_is_node (p4est_node_clamp_inside n) true = true ∧
        p4est_node_unclamp (p4est_node_clamp_inside n) = n := by
  intro n hwx hwy hnode
  simp only [p4est_quadrant_is_node, Bool.and_eq_true, decide_eq_true_eq,
    Bool.or_eq_true, Bool.false_and, Bool.false_eq_true, or_false, if_false,
    P4EST_ROOT_LEN, P4EST_MAXLEVEL, P4EST_QMAXLEVEL] at hnode
  norm_num [Nat.and_one_is_mod] at hnode
  obtain ⟨⟨⟨⟨⟨⟨hl, hx0⟩, hx1⟩, hy0⟩, hy1⟩, hxev⟩, hyev⟩ := hnode
  have hxlt : n.x < 2 ^ 31 := (toVal_nonneg_iff hwx).mp hx0
  have hylt : n.y < 2 ^ 31 := (toVal_nonneg_iff hwy).mp hy0
  rw [toVal_of_lt hxlt] at hx1
  rw [toVal_of_lt hylt] at hy1
  have hxle : n.x ≤ 2 ^ 30 := by omega
  have hyle : n.y ≤ 2 ^ 30 := by omega
  constructor
  · simp only [p4est_node_clamp_inside, p4est_quadrant_is_node, Bool.and_eq_true,
      decide_eq_true_eq, Bool.or_eq_true, Bool.true_and, if_true,
      P4EST_ROOT_LEN, P4EST_MAXLEVEL, P4EST_QMAXLEVEL]
    norm_num [Nat.and_one_is_mod]
    refine ⟨⟨⟨⟨⟨?_, ?_⟩, ?_⟩, ?_⟩, ?_⟩, ?_⟩
    · by_cases h : n.x = 1073741824
      · rw [if_pos h, toVal_of_lt (by norm_num)]
        norm_num
      · rw [if_neg h, toVal_of_lt hxlt]
        omega
    · by_cases h : n.x = 1073741824
      · rw [if_pos h, toVal_of_lt (by norm_num)]
        norm_num
      · rw [if_neg h, toVal_of_lt hxlt]
        have : n.x < 2 ^ 30 := by omega
        omega
    · by_cases h : n.y = 1073741824
      · rw [if_pos h, toVal_of_lt (by norm_num)]
        norm_num
      · rw [if_neg h, toVal_of_lt hylt]
        omega
    · by_cases h : n.y = 1073741824
      · rw [if_pos h, toVal_of_lt (by norm_num)]
        norm_num
      · rw [if_neg h, toVal_of_lt hylt]
        have : n.y < 2 ^ 30 := by omega
        omega
    · by_cases h : n.x = 1073741824
      · exact Or.inr (fun hc => absurd h hc)
      · rw [if_neg h]
        exact Or.inl hxev
    · by_cases h : n.y = 1073741824
      · exact Or.inr (fun hc => absurd h hc)
      · rw [if_neg h]
        exact Or.inl hyev
  · simp only [p4est_node_unclamp, p4est_node_clamp_inside]
    have hxcase : (if (if n.x = P4EST_ROOT_LEN then P4EST_ROOT_LEN - 1 else n.x) =
        P4EST_ROOT_LEN - 1 then P4EST_ROOT_LEN else
        (if n.x = P4EST_ROOT_LEN then P4EST_ROOT_LEN - 1 else n.x)) = n.x := by
      by_cases h : n.x = P4EST_ROOT_LEN
      · rw [if_pos h, if_pos rfl, h]
      · rw [if_neg h, if_neg (by simp only [P4EST_ROOT_LEN]; omega)]
    have hycase : (if (if n.y = P4EST_ROOT_LEN then P4EST_ROOT_LEN - 1 else n.y) =
        P4EST_ROOT_LEN - 1 then P4EST_ROOT_LEN else
        (if n.y = P4EST_ROOT_LEN then P4EST_ROOT_LEN - 1 else n.y)) = n.y := by
      by_cases h : n.y = P4EST_ROOT_LEN
      · rw [if_pos h, if_pos rfl, h]
      · rw [if_neg h, if_neg (by simp only [P4EST_ROOT_LEN]; omega)]
    rw [hxcase, hycase]
    simp only [P4EST_MAXLEVEL]
    rw [← hl]

theorem p4est_node_clamp_unclamp_roundtrip_witness :
    p4est_quadrant_is_node
        (p4est_node_clamp_inside (Quadrant.mk P4EST_ROOT_LEN 6 P4EST_MAXLEVEL)) true = true ∧
      p4est_node_unclamp
          (p4est_node_clamp_inside (Quadrant.mk P4EST_ROOT_LEN 6 P4EST_MAXLEVEL)) =
        Quadrant.mk P4EST_ROOT_LEN 6 P4EST_MAXLEVEL :=
  p4est_node_clamp_unclamp_roundtrip (Quadrant.mk P4EST_ROOT_LEN 6 P4EST_MAXLEVEL)
    (by norm_num [P4EST_ROOT_LEN]) (by norm_num) (by decide)

end Claim10

section Claim8

open P4est

theorem testBit_ge_two_pow_31 {n : Nat} (h31 : n.testBit 31 = true) (h30 : n.testBit 30 = true) :
    2 ^ 31 + 2 ^ 30 ≤ n := by
  rw [Nat.testBit_to_div_mod] at h31 h30
  simp only [decide_eq_true_eq] at h31 h30
  omega

theorem testBit_of_ge_sub {n : Nat} (h1 : 2 ^ 32 - 2 ^ 30 ≤ n) (h2 : n < 2 ^ 32) :
    n.testBit 31 = true ∧ n.testBit 30 = true := by
  rw [Nat.testBit_to_div_mod, Nat.testBit_to_div_mod]
  simp only [decide_eq_true_eq]
  omega

theorem testBit_true_of_ge_31 {n : Nat} (h1 : 2 ^ 31 ≤ n) (h2 : n < 2 ^ 32) :
    n.testBit 31 = true := by
  rw [Nat.testBit_to_div_mod]
  simp only [decide_eq_true_eq]
  omega

theorem testBit_masked_single {x k i : Nat} (hki : k ≠ i) (hi : i < 32) :
    (x &&& not32 (2 ^ k)).testBit i = x.testBit i := by
  rw [Nat.testBit_and, testBit_not32, Nat.testBit_two_pow]
  rw [decide_eq_true hi, decide_eq_false hki]
  simp

theorem masked_bounds_3x3 {x k : Nat} (hw : x < 2 ^ 32) (hk : k ≤ 29)
    (hlo : -(2 ^ 30 : Int) ≤ toVal x) :
    -(2 ^ 30 : Int) ≤ toVal (x &&& not32 (2 ^ k)) ∧
      toVal (x &&& not32 (2 ^ k)) ≤ (2 ^ 31 : Int) - 1 := by
  have hple : x &&& not32 (2 ^ k) ≤ x := Nat.and_le_left
  by_cases hx : x < 2 ^ 31
  · have hplt : x &&& not32 (2 ^ k) < 2 ^ 31 := Nat.lt_of_le_of_lt hple hx
    rw [toVal_of_lt hplt]
    omega
  · have hxv := toVal_of_ge (Nat.le_of_not_lt hx)
    rw [hxv] at hlo
    have hxge : 2 ^ 32 - 2 ^ 30 ≤ x := by omega
    obtain ⟨h31, h30⟩ := testBit_of_ge_sub hxge hw
    have hp31 : (x &&& not32 (2 ^ k)).testBit 31 = true := by
      rw [testBit_masked_single (by omega) (by omega)]
      exact h31
    have hp30 : (x &&& not32 (2 ^ k)).testBit 30 = true := by
      rw [testBit_masked_single (by omega) (by omega)]
      exact h30
    have hpge : 2 ^ 31 + 2 ^ 30 ≤ x &&& not32 (2 ^ k) := testBit_ge_two_pow_31 hp31 hp30
    have hpw : x &&& not32 (2 ^ k) < 2 ^ 32 := Nat.lt_of_le_of_lt hple hw
    rw [toVal_of_ge (by omega)]
    omega

/-- C8: the parent operation requires level > 0 (its precondition assertion
fails on a level-0 input), and on every extended quadrant of positive level it
produces an extended quadrant, so its trailing validity assertion holds. -/
theorem p4est_quadrant_parent_precondition_and_closure :
    (∀ q : Quadrant, q.level = 0 → ¬ p4est_quadrant_parent_precond q) ∧
      (∀ q : Quadrant, q.x < 2 ^ 32 → q.y < 2 ^ 32 →
        p4est_quadrant_is_extended q = true → 0 < q.level →
        p4est_quadrant_is_extended (p4est_quadrant_parent q) = true) := by
  constructor
  · intro q hq hpre
    have h2 := hpre.2
    omega
  · intro q hwx hwy hext hlev
    simp only [p4est_quadrant_is_extended, p4est_quadrant_is_inside_3x3,
      Bool.and_eq_true, decide_eq_true_eq, P4EST_ROOT_LEN, P4EST_QMAXLEVEL,
      P4EST_QUADRANT_LEN] at hext
    obtain ⟨⟨⟨hl, hax⟩, hay⟩, ⟨⟨hbx1, hbx2⟩, hby1⟩, hby2⟩ := hext
    simp only [p4est_quadrant_parent, p4est_quadrant_is_extended,
      p4est_quadrant_is_inside_3x3, Bool.and_eq_true, decide_eq_true_eq,
      P4EST_ROOT_LEN, P4EST_QMAXLEVEL, P4EST_QUADRANT_LEN]
    have haxb := land_mask_eq_zero_iff.mp hax
    have hayb := land_mask_eq_zero_iff.mp hay
    have halignx : q.x &&& not32 (2 ^ (30 - q.level)) &&&
        (2 ^ (30 - (q.level - 1)) - 1) = 0 := by
      rw [land_mask_eq_zero_iff]
      intro i hi
      by_cases hieq : 30 - q.level = i
      · rw [Nat.testBit_and, testBit_not32, Nat.testBit_two_pow,
          decide_eq_true hieq, decide_eq_true (show i < 32 by omega)]
        simp
      · rw [testBit_masked_single hieq (by omega)]
        exact haxb i (by omega)
    have haligny : q.y &&& not32 (2 ^ (30 - q.level)) &&&
        (2 ^ (30 - (q.level - 1)) - 1) = 0 := by
      rw [land_mask_eq_zero_iff]
      intro i hi
      by_cases hieq : 30 - q.level = i
      · rw [Nat.testBit_and, testBit_not32, Nat.testBit_two_pow,
          decide_eq_true hieq, decide_eq_true (show i < 32 by omega)]
        simp
      · rw [testBit_masked_single hieq (by omega)]
        exact hayb i (by omega)
    have hbx := masked_bounds_3x3 (k := 30 - q.level) hwx (by omega) (by exact_mod_cast hbx1)
    have hby := masked_bounds_3x3 (k := 30 - q.level) hwy (by omega) (by exact_mod_cast hby1)
    refine ⟨⟨⟨by omega, halignx⟩, haligny⟩, ⟨⟨?_, ?_⟩, ?_⟩, ?_⟩
    · exact_mod_cast hbx.1
    · have := hbx.2
      omega
    · exact_mod_cast hby.1
    · have := hby.2
      omega

theorem p4est_quadrant_parent_precondition_and_closure_witness :
    ¬ p4est_quadrant_parent_precond (Quadrant.mk 0 0 0) ∧
      p4est_quadrant_is_extended
        (p4est_quadrant_parent (Quadrant.mk (2 ^ 29) (2 ^ 29) 1)) = true :=
  ⟨p4est_quadrant_parent_precondition_and_closure.1 (Quadrant.mk 0 0 0) rfl,
   p4est_quadrant_parent_precondition_and_closure.2 (Quadrant.mk (2 ^ 29) (2 ^ 29) 1)
     (by norm_num) (by norm_num) (by decide) (by norm_num)⟩

end Claim8

section Claim7

open P4est

theorem lt_two_pow_iff_high_false {X s : Nat} :
    X < 2 ^ s ↔ ∀ i, s ≤ i → X.testBit i = false := by
  constructor
  · intro h i hi
    exact Nat.testBit_lt_two_pow
      (Nat.lt_of_lt_of_le h (Nat.pow_le_pow_right (by omega) hi))
  · intro h
    by_contra hge
    have hX0 : X ≠ 0 := by
      intro h0
      rw [h0] at hge
      exact hge (Nat.pos_pow_of_pos s (by omega))
    have hlog : s ≤ X.log2 := (Nat.le_log2 hX0).mpr (by omega)
    have := h X.log2 hlog
    rw [testBit_log2_self hX0] at this
    exact absurd this (by simp)

theorem fdiv_toVal_eq_zero_iff {X s : Nat} (hX : X < 2 ^ 32) (hs : s ≤ 31) :
    (toVal X).fdiv (2 ^ s) = 0 ↔ X < 2 ^ s := by
  rw [Int.fdiv_eq_ediv _ (by positivity)]
  by_cases hx : X < 2 ^ 31
  · rw [toVal_of_lt hx]
    have hcast : ((2 : Int) ^ s) = ((2 ^ s : Nat) : Int) := by push_cast; ring
    rw [hcast, ← Int.ofNat_ediv]
    have hz : ((X / 2 ^ s : Nat) : Int) = 0 ↔ X / 2 ^ s = 0 := by
      exact_mod_cast Iff.rfl
    rw [hz, Nat.div_eq_zero_iff (Nat.pos_pow_of_pos s (by omega))]
  · have hneg : toVal X < 0 := by
      rw [toVal_of_ge (Nat.le_of_not_lt hx)]
      omega
    have hd : toVal X / 2 ^ s < 0 := Int.ediv_neg' hneg (by positivity)
    constructor
    · intro h
      omega
    · intro h
      exfalso
      have : 2 ^ s ≤ 2 ^ 31 := Nat.pow_le_pow_right (by omega) hs
      omega

/-- C7: p4est_quadrant_is_ancestor q r holds iff q is shallower than r and on
each axis the coordinates agree on all bits from position
MAXLEVEL - q.level upward (i.e. above the low MAXLEVEL - q.level bits). -/
theorem p4est_quadrant_is_ancestor_characterization :
    ∀ q r : Quadrant, q.x < 2 ^ 32 → q.y < 2 ^ 32 → r.x < 2 ^ 32 → r.y < 2 ^ 32 →
      p4est_quadrant_is_extended q = true → p4est_quadrant_is_extended r = true →
      (p4est_quadrant_is_ancestor q r = true ↔
        q.level < r.level ∧
          ∀ i, P4EST_MAXLEVEL - q.level ≤ i →
            (q.x.testBit i = r.x.testBit i ∧ q.y.testBit i = r.y.testBit i)) := by
  intro q r hqx hqy hrx hry hqe hre
  simp only [p4est_quadrant_is_ancestor, P4EST_MAXLEVEL]
  by_cases hlv : r.level ≤ q.level
  · rw [if_pos hlv]
    simp only [Bool.false_eq_true, false_iff]
    intro hcon
    omega
  · rw [if_neg hlv]
    simp only [Bool.and_eq_true, decide_eq_true_eq]
    rw [fdiv_toVal_eq_zero_iff (Nat.xor_lt_two_pow hqx hrx) (by omega),
      fdiv_toVal_eq_zero_iff (Nat.xor_lt_two_pow hqy hry) (by omega)]
    rw [lt_two_pow_iff_high_false, lt_two_pow_iff_high_false]
    constructor
    · intro ⟨hxa, hya⟩
      refine ⟨by omega, fun i hi => ⟨?_, ?_⟩⟩
      · have := hxa i hi
        rw [Nat.testBit_xor] at this
        cases hu : q.x.testBit i <;> cases hv : r.x.testBit i <;> simp_all
      · have := hya i hi
        rw [Nat.testBit_xor] at this
        cases hu : q.y.testBit i <;> cases hv : r.y.testBit i <;> simp_all
    · intro ⟨_, hagree⟩
      constructor
      · intro i hi
        rw [Nat.testBit_xor, (hagree i hi).1]
        simp
      · intro i hi
        rw [Nat.testBit_xor, (hagree i hi).2]
        simp

theorem p4est_quadrant_is_ancestor_characterization_witness :
    p4est_quadrant_is_ancestor (Quadrant.mk 0 0 0) (Quadrant.mk (2 ^ 29) 0 1) = true ↔
      (0 : Nat) < 1 ∧
        ∀ i, P4EST_MAXLEVEL - 0 ≤ i →
          ((0 : Nat).testBit i = (2 ^ 29 : Nat).testBit i ∧
            (0 : Nat).testBit i = (0 : Nat).testBit i) :=
  p4est_quadrant_is_ancestor_characterization (Quadrant.mk 0 0 0) (Quadrant.mk (2 ^ 29) 0 1)
    (by norm_num) (by norm_num) (by norm_num) (by norm_num) (by decide) (by decide)

end Claim7

section Claim9

/-- C9 evaluation: in the 3D build, the octants (0,0,0) and (0,0,2^19) at
level 1 are both extended-valid; the bit-mask test p8est_quadrant_is_sibling
accepts them (its z-axis check is dead code behind the misspelled macro
P4_To_P8) while the reference p8est_quadrant_is_sibling_D rejects them, since
their parents differ in z.  This exhibits the divergence of the two
predicates. -/
theorem p8est_quadrant_is_sibling_typo_divergence :
    P8est.p8est_quadrant_is_extended (P8est.Quadrant.mk 0 0 0 1) = true ∧
      P8est.p8est_quadrant_is_extended (P8est.Quadrant.mk 0 0 (2 ^ 19) 1) = true ∧
      P8est.p8est_quadrant_is_sibling (P8est.Quadrant.mk 0 0 0 1)
          (P8est.Quadrant.mk 0 0 (2 ^ 19) 1) = true ∧
      P8est.p8est_quadrant_is_sibling_D (P8est.Quadrant.mk 0 0 0 1)
          (P8est.Quadrant.mk 0 0 (2 ^ 19) 1) = false := by
  refine ⟨by decide, by decide, by decide, by decide⟩

end Claim9

section Claim1

theorem ternary_sign (d : Int) :
    (if d = 0 then (0 : Int) else if d < 0 then -1 else 1) = Int.sign d := by
  by_cases h0 : d = 0
  · simp [h0]
  · by_cases hneg : d < 0
    · rw [if_neg h0, if_pos hneg, Int.sign_eq_neg_one_iff_neg.mpr hneg]
    · have hpos : 0 < d := by omega
      rw [if_neg h0, if_neg hneg, Int.sign_eq_one_iff_pos.mpr hpos]

theorem padd_eq (M a : Nat) :
    toVal a + (if 0 ≤ toVal a then 0 else (2 : Int) ^ (M + 2)) =
      toVal a + (if toVal a < 0 then (2 : Int) ^ (M + 2) else 0) := by
  by_cases h : 0 ≤ toVal a
  · rw [if_pos h, if_neg (by omega)]
  · rw [if_neg h, if_pos (by omega)]

/-- C1: for node-valid or extended quadrants, in both the 2D and the 3D
build, the sign of p4est_quadrant_compare is exactly the spec's three-way
rule: equal coordinates compare by level ascending, otherwise the axis with
the greatest highest-differing-bit position decides (ties z before y before
x in 3D, y before x in 2D) and the sign is that of the difference of the two
coordinates after adding 2^(MAXLEVEL+2) to each negative coordinate. -/
theorem p4est_quadrant_compare_three_way_rule :
    (∀ q1 q2 : P4est.Quadrant,
      (P4est.p4est_quadrant_is_node q1 true || P4est.p4est_quadrant_is_extended q1) = true →
      (P4est.p4est_quadrant_is_node q2 true || P4est.p4est_quadrant_is_extended q2) = true →
      Int.sign (P4est.p4est_quadrant_compare q1 q2) = claimCompareSign2 q1 q2) ∧
    (∀ q1 q2 : P8est.Quadrant,
      (P8est.p8est_quadrant_is_node q1 true || P8est.p8est_quadrant_is_extended q1) = true →
      (P8est.p8est_quadrant_is_node q2 true || P8est.p8est_quadrant_is_extended q2) = true →
      Int.sign (P8est.p8est_quadrant_compare q1 q2) = claimCompareSign3 q1 q2) := by
  constructor
  · intro q1 q2 h1 h2
    simp only [P4est.p4est_quadrant_compare, claimCompareSign2]
    have hc : ((q1.y ^^^ q2.y) = 0 ∧ (q1.x ^^^ q2.x) = 0) ↔
        (q1.x = q2.x ∧ q1.y = q2.y) := by
      rw [Nat.xor_eq_zero, Nat.xor_eq_zero]
      tauto
    by_cases h : q1.x = q2.x ∧ q1.y = q2.y
    · rw [if_pos (hc.mpr h), if_pos h]
    · rw [if_neg (fun hcc => h (hc.mp hcc)), if_neg h]
      by_cases hyx : SC_LOG2_32 (q1.y ^^^ q2.y) ≥ SC_LOG2_32 (q1.x ^^^ q2.x)
      · rw [if_pos hyx, if_pos hyx, ternary_sign, Int.sign_sign, psign,
          P4est.P4EST_MAXLEVEL, padd_eq 30 q1.y, padd_eq 30 q2.y]
      · rw [if_neg hyx, if_neg hyx, ternary_sign, Int.sign_sign, psign,
          P4est.P4EST_MAXLEVEL, padd_eq 30 q1.x, padd_eq 30 q2.x]
  · intro q1 q2 h1 h2
    simp only [P8est.p8est_quadrant_compare, claimCompareSign3]
    have hc : ((q1.y ^^^ q2.y) = 0 ∧ (q1.x ^^^ q2.x) = 0 ∧ (q1.z ^^^ q2.z) = 0) ↔
        (q1.x = q2.x ∧ q1.y = q2.y ∧ q1.z = q2.z) := by
      rw [Nat.xor_eq_zero, Nat.xor_eq_zero, Nat.xor_eq_zero]
      tauto
    by_cases h : q1.x = q2.x ∧ q1.y = q2.y ∧ q1.z = q2.z
    · rw [if_pos (hc.mpr h), if_pos h]
    · rw [if_neg (fun hcc => h (hc.mp hcc)), if_neg h]
      set lx := SC_LOG2_32 (q1.x ^^^ q2.x) with hlx
      set ly := SC_LOG2_32 (q1.y ^^^ q2.y) with hly
      set lz := SC_LOG2_32 (q1.z ^^^ q2.z) with hlz
      by_cases hz : lz ≥ lx ∧ lz ≥ ly
      · rw [if_pos hz, if_pos hz, ternary_sign, Int.sign_sign, psign,
          P8est.P8EST_MAXLEVEL, padd_eq 19 q1.z, padd_eq 19 q2.z]
      · rw [if_neg hz, if_neg hz]
        by_cases hy : ly ≥ lx
        · have hy2 : ly ≥ lx ∧ ly > lz := by
            constructor
            · exact hy
            · by_contra hylez
              exact hz ⟨by omega, by omega⟩
          rw [if_pos hy, if_pos hy2, ternary_sign, Int.sign_sign, psign,
            P8est.P8EST_MAXLEVEL, padd_eq 19 q1.y, padd_eq 19 q2.y]
        · have hy2 : ¬ (ly ≥ lx ∧ ly > lz) := fun hcc => hy hcc.1
          rw [if_neg hy, if_neg hy2, ternary_sign, Int.sign_sign, psign,
            P8est.P8EST_MAXLEVEL, padd_eq 19 q1.x, padd_eq 19 q2.x]

theorem p4est_quadrant_compare_three_way_rule_witness :
    Int.sign (P4est.p4est_quadrant_compare (P4est.Quadrant.mk (2 ^ 29) 0 1)
        (P4est.Quadrant.mk 0 (2 ^ 29) 1)) =
      claimCompareSign2 (P4est.Quadrant.mk (2 ^ 29) 0 1) (P4est.Quadrant.mk 0 (2 ^ 29) 1) ∧
    Int.sign (P8est.p8est_quadrant_compare (P8est.Quadrant.mk 0 0 0 0)
        (P8est.Quadrant.mk 0 0 (2 ^ 18) 1)) =
      claimCompareSign3 (P8est.Quadrant.mk 0 0 0 0) (P8est.Quadrant.mk 0 0 (2 ^ 18) 1) :=
  ⟨p4est_quadrant_compare_three_way_rule.1 (P4est.Quadrant.mk (2 ^ 29) 0 1)
      (P4est.Quadrant.mk 0 (2 ^ 29) 1) (by decide) (by decide),
   p4est_quadrant_compare_three_way_rule.2 (P8est.Quadrant.mk 0 0 0 0)
      (P8est.Quadrant.mk 0 0 (2 ^ 18) 1) (by decide) (by decide)⟩

end Claim1

section Claim2

open P4est
theorem testBit_linidAux_even {x y : Nat} (c j : Nat) :
    (linidAux x y c).testBit (2 * j) = (decide (j < c) && x.testBit j) := by
  induction c with
  | zero => simp [linidAux]
  | succ i ih =>
    have t1 : ((x &&& 2 ^ i) <<< i).testBit (2 * j) = (decide (j = i) && x.testBit j) := by
      rw [Nat.testBit_shiftLeft, Nat.testBit_and, Nat.testBit_two_pow]
      by_cases hji : j = i
      · subst hji
        have e1 : decide (j ≤ 2 * j) = true := decide_eq_true (by omega)
        have e2 : 2 * j - j = j := by omega
        rw [e1, e2, decide_eq_true (rfl : j = j)]
        simp
      · have e3 : decide (j = i) = false := decide_eq_false hji
        rw [e3]
        by_cases h1 : i ≤ 2 * j
        · have e4 : decide (i = 2 * j - i) = false := decide_eq_false (by omega)
          rw [decide_eq_true h1, e4]
          simp
        · rw [decide_eq_false h1]
          simp
    have t2 : ((y &&& 2 ^ i) <<< (i + 1)).testBit (2 * j) = false := by
      rw [Nat.testBit_shiftLeft, Nat.testBit_and, Nat.testBit_two_pow]
      by_cases h1 : i + 1 ≤ 2 * j
      · have e4 : decide (i = 2 * j - (i + 1)) = false := decide_eq_false (by omega)
        rw [e4]
        simp
      · rw [decide_eq_false h1]
        simp
    simp only [linidAux, Nat.testBit_or, ih, t1, t2]
    cases hxb : x.testBit j
    · simp
    · simp only [Bool.and_true, Bool.or_false]
      by_cases h1 : j < i
      · rw [decide_eq_true h1, decide_eq_true (show j < i + 1 by omega)]
        simp
      · by_cases h2 : j = i
        · rw [decide_eq_true h2, decide_eq_true (show j < i + 1 by omega)]
          simp
        · rw [decide_eq_false h1, decide_eq_false h2,
            decide_eq_false (show ¬ j < i + 1 by omega)]
          simp

theorem testBit_linidAux_odd {x y : Nat} (c j : Nat) :
    (linidAux x y c).testBit (2 * j + 1) = (decide (j < c) && y.testBit j) := by
  induction c with
  | zero => simp [linidAux]
  | succ i ih =>
    have t1 : ((x &&& 2 ^ i) <<< i).testBit (2 * j + 1) = false := by
      rw [Nat.testBit_shiftLeft, Nat.testBit_and, Nat.testBit_two_pow]
      by_cases h1 : i ≤ 2 * j + 1
      · have e4 : decide (i = 2 * j + 1 - i) = false := decide_eq_false (by omega)
        rw [e4]
        simp
      · rw [decide_eq_false h1]
        simp
    have t2 : ((y &&& 2 ^ i) <<< (i + 1)).testBit (2 * j + 1) = (decide (j = i) && y.testBit j) := by
      rw [Nat.testBit_shiftLeft, Nat.testBit_and, Nat.testBit_two_pow]
      by_cases hji : j = i
      · subst hji
        have e1 : decide (j + 1 ≤ 2 * j + 1) = true := decide_eq_true (by omega)
        have e2 : 2 * j + 1 - (j + 1) = j := by omega
        rw [e1, e2, decide_eq_true (rfl : j = j)]
        simp
      · have e3 : decide (j = i) = false := decide_eq_false hji
        rw [e3]
        by_cases h1 : i + 1 ≤ 2 * j + 1
        · have e4 : decide (i = 2 * j + 1 - (i + 1)) = false := decide_eq_false (by omega)
          rw [decide_eq_true h1, e4]
          simp
        · rw [decide_eq_false h1]
          simp
    simp only [linidAux, Nat.testBit_or, ih, t1, t2]
    cases hyb : y.testBit j
    · simp
    · simp only [Bool.and_true, Bool.or_false]
      by_cases h1 : j < i
      · rw [decide_eq_true h1, decide_eq_true (show j < i + 1 by omega)]
        simp
      · by_cases h2 : j = i
        · rw [decide_eq_true h2, decide_eq_true (show j < i + 1 by omega)]
          simp
        · rw [decide_eq_false h1, decide_eq_false h2,
            decide_eq_false (show ¬ j < i + 1 by omega)]
          simp

theorem testBit_demortonX {id : Nat} (c j : Nat) :
    (demortonX id c).testBit j = (decide (j < c) && id.testBit (2 * j)) := by
  induction c with
  | zero => simp [demortonX]
  | succ i ih =>
    have t1 : ((id &&& 2 ^ (2 * i)) >>> i).testBit j = (decide (j = i) && id.testBit (2 * j)) := by
      rw [Nat.testBit_shiftRight, Nat.testBit_and, Nat.testBit_two_pow]
      by_cases hji : j = i
      · subst hji
        rw [decide_eq_true (show 2 * j = j + j by omega)]
        have : j + j = 2 * j := by omega
        simp [this]
      · rw [decide_eq_false (show ¬ (2 * i = i + j) by omega)]
        rw [decide_eq_false hji]
        simp
    simp only [demortonX, Nat.testBit_or, ih, t1]
    cases hb : id.testBit (2 * j)
    · simp
    · simp only [Bool.and_true, Bool.or_false]
      by_cases h1 : j < i
      · rw [decide_eq_true h1, decide_eq_true (show j < i + 1 by omega)]
        simp
      · by_cases h2 : j = i
        · rw [decide_eq_true h2, decide_eq_true (show j < i + 1 by omega)]
          simp
        · rw [decide_eq_false h1, decide_eq_false h2,
            decide_eq_false (show ¬ j < i + 1 by omega)]
          simp

theorem testBit_demortonY {id : Nat} (c j : Nat) :
    (demortonY id c).testBit j = (decide (j < c) && id.testBit (2 * j + 1)) := by
  induction c with
  | zero => simp [demortonY]
  | succ i ih =>
    have t1 : ((id &&& 2 ^ (2 * i + 1)) >>> (i + 1)).testBit j =
        (decide (j = i) && id.testBit (2 * j + 1)) := by
      rw [Nat.testBit_shiftRight, Nat.testBit_and, Nat.testBit_two_pow]
      by_cases hji : j = i
      · subst hji
        rw [decide_eq_true (show 2 * j + 1 = j + 1 + j by omega)]
        have : j + 1 + j = 2 * j + 1 := by omega
        simp [this]
      · rw [decide_eq_false (show ¬ (2 * i + 1 = i + 1 + j) by omega)]
        rw [decide_eq_false hji]
        simp
    simp only [demortonY, Nat.testBit_or, ih, t1]
    cases hb : id.testBit (2 * j + 1)
    · simp
    · simp only [Bool.and_true, Bool.or_false]
      by_cases h1 : j < i
      · rw [decide_eq_true h1, decide_eq_true (show j < i + 1 by omega)]
        simp
      · by_cases h2 : j = i
        · rw [decide_eq_true h2, decide_eq_true (show j < i + 1 by omega)]
          simp
        · rw [decide_eq_false h1, decide_eq_false h2,
            decide_eq_false (show ¬ j < i + 1 by omega)]
          simp

theorem shrA_of_lt31 {x : Nat} (s : Nat) (hx : x < 2 ^ 31) : shrA x s = x >>> s := by
  rw [shrA, toVal_of_lt hx, Int.fdiv_eq_ediv _ (by positivity)]
  have hcast : ((2 : Int) ^ s) = ((2 ^ s : Nat) : Int) := by push_cast; ring
  rw [hcast, ← Int.ofNat_ediv]
  rw [Int.emod_eq_of_lt (by positivity) (by
    have h1 : x / 2 ^ s ≤ x := Nat.div_le_self x (2 ^ s)
    have : ((x / 2 ^ s : Nat) : Int) ≤ (x : Int) := by exact_mod_cast h1
    have hx64 : (x : Int) < 2 ^ 64 := by
      have : (x : Int) < 2 ^ 31 := by exact_mod_cast hx
      omega
    omega)]
  rw [Int.toNat_ofNat, Nat.shiftRight_eq_div_pow]
theorem shiftRight_lt_of_lt {x s a : Nat} (h : x < 2 ^ (a + s)) : x >>> s < 2 ^ a := by
  rw [Nat.shiftRight_eq_div_pow]
  rw [Nat.div_lt_iff_lt_mul (Nat.pos_pow_of_pos s (by omega))]
  rw [← Nat.pow_add]
  exact h

/-- C2: for every valid quadrant q and level L at most q.level, decoding the
linear id computed at L through p4est_quadrant_set_morton yields exactly q's
coordinates truncated to level L (bits below MAXLEVEL - L cleared) at level
L, and re-encoding that quadrant reproduces the id, so encoding and decoding
are mutually inverse on this domain. -/
theorem p4est_quadrant_morton_roundtrip :
    ∀ (q : Quadrant) (L : Nat), q.x < 2 ^ 32 → q.y < 2 ^ 32 →
      p4est_quadrant_is_valid q = true → L ≤ q.level →
      p4est_quadrant_set_morton L (p4est_quadrant_linear_id q L) = truncAt q L ∧
        p4est_quadrant_linear_id (p4est_quadrant_set_morton L (p4est_quadrant_linear_id q L)) L =
          p4est_quadrant_linear_id q L := by
  intro q L hwx hwy hval hL
  simp only [p4est_quadrant_is_valid, p4est_quadrant_is_inside_root, Bool.and_eq_true,
    decide_eq_true_eq, P4EST_ROOT_LEN, P4EST_QMAXLEVEL, P4EST_QUADRANT_LEN] at hval
  obtain ⟨⟨⟨hlev, hax⟩, hay⟩, ⟨⟨hx0, hx1⟩, hy0⟩, hy1⟩ := hval
  have hx31 : q.x < 2 ^ 31 := (toVal_nonneg_iff hwx).mp hx0
  have hy31 : q.y < 2 ^ 31 := (toVal_nonneg_iff hwy).mp hy0
  rw [toVal_of_lt hx31] at hx1
  rw [toVal_of_lt hy31] at hy1
  have hx30 : q.x < 2 ^ 30 := by exact_mod_cast hx1
  have hy30 : q.y < 2 ^ 30 := by exact_mod_cast hy1
  have hs : 30 - (30 - L) = L := by omega
  have hxu : q.x >>> (30 - L) < 2 ^ L := by
    apply shiftRight_lt_of_lt
    have : L + (30 - L) = 30 := by omega
    rw [this]
    exact hx30
  have hyu : q.y >>> (30 - L) < 2 ^ L := by
    apply shiftRight_lt_of_lt
    have : L + (30 - L) = 30 := by omega
    rw [this]
    exact hy30
  have hlin : p4est_quadrant_linear_id q L =
      linidAux (q.x >>> (30 - L)) (q.y >>> (30 - L)) (L + 2) := by
    rw [p4est_quadrant_linear_id, P4EST_MAXLEVEL, shrA_of_lt31 _ hx31, shrA_of_lt31 _ hy31]
  have keyX : demortonX (linidAux (q.x >>> (30 - L)) (q.y >>> (30 - L)) (L + 2)) (L + 2) =
      q.x >>> (30 - L) := by
    apply Nat.eq_of_testBit_eq
    intro j
    rw [testBit_demortonX, testBit_linidAux_even]
    by_cases hj : j < L + 2
    · rw [decide_eq_true hj]
      simp
    · rw [decide_eq_false hj]
      have : (q.x >>> (30 - L)).testBit j = false := by
        apply Nat.testBit_lt_two_pow
        calc q.x >>> (30 - L) < 2 ^ L := hxu
        _ ≤ 2 ^ j := Nat.pow_le_pow_right (by omega) (by omega)
      rw [this]
      simp
  have keyY : demortonY (linidAux (q.x >>> (30 - L)) (q.y >>> (30 - L)) (L + 2)) (L + 2) =
      q.y >>> (30 - L) := by
    apply Nat.eq_of_testBit_eq
    intro j
    rw [testBit_demortonY, testBit_linidAux_odd]
    by_cases hj : j < L + 2
    · rw [decide_eq_true hj]
      simp
    · rw [decide_eq_false hj]
      have : (q.y >>> (30 - L)).testBit j = false := by
        apply Nat.testBit_lt_two_pow
        calc q.y >>> (30 - L) < 2 ^ L := hyu
        _ ≤ 2 ^ j := Nat.pow_le_pow_right (by omega) (by omega)
      rw [this]
      simp
  have hxshift : (q.x >>> (30 - L)) <<< (30 - L) < 2 ^ 32 := by
    rw [Nat.shiftLeft_eq]
    calc (q.x >>> (30 - L)) * 2 ^ (30 - L) < 2 ^ L * 2 ^ (30 - L) := by
          exact (Nat.mul_lt_mul_right (Nat.pos_pow_of_pos _ (by omega))).mpr hxu
    _ = 2 ^ 30 := by rw [← Nat.pow_add]; congr 1; omega
    _ < 2 ^ 32 := by norm_num
  have hyshift : (q.y >>> (30 - L)) <<< (30 - L) < 2 ^ 32 := by
    rw [Nat.shiftLeft_eq]
    calc (q.y >>> (30 - L)) * 2 ^ (30 - L) < 2 ^ L * 2 ^ (30 - L) := by
          exact (Nat.mul_lt_mul_right (Nat.pos_pow_of_pos _ (by omega))).mpr hyu
    _ = 2 ^ 30 := by rw [← Nat.pow_add]; congr 1; omega
    _ < 2 ^ 32 := by norm_num
  have hfirst : p4est_quadrant_set_morton L (p4est_quadrant_linear_id q L) = truncAt q L := by
    rw [hlin, p4est_quadrant_set_morton, P4EST_MAXLEVEL, keyX, keyY, truncAt]
    congr 1
    · exact Nat.mod_eq_of_lt hxshift
    · exact Nat.mod_eq_of_lt hyshift
  refine ⟨hfirst, ?_⟩
  rw [hfirst]
  rw [truncAt, hlin, p4est_quadrant_linear_id, P4EST_MAXLEVEL]
  have hxlt31 : (q.x >>> (30 - L)) <<< (30 - L) < 2 ^ 31 := by
    have h30 : (q.x >>> (30 - L)) <<< (30 - L) < 2 ^ 30 := by
      rw [Nat.shiftLeft_eq]
      calc (q.x >>> (30 - L)) * 2 ^ (30 - L) < 2 ^ L * 2 ^ (30 - L) := by
            exact (Nat.mul_lt_mul_right (Nat.pos_pow_of_pos _ (by omega))).mpr hxu
      _ = 2 ^ 30 := by rw [← Nat.pow_add]; congr 1; omega
    omega
  have hylt31 : (q.y >>> (30 - L)) <<< (30 - L) < 2 ^ 31 := by
    have h30 : (q.y >>> (30 - L)) <<< (30 - L) < 2 ^ 30 := by
      rw [Nat.shiftLeft_eq]
      calc (q.y >>> (30 - L)) * 2 ^ (30 - L) < 2 ^ L * 2 ^ (30 - L) := by
            exact (Nat.mul_lt_mul_right (Nat.pos_pow_of_pos _ (by omega))).mpr hyu
      _ = 2 ^ 30 := by rw [← Nat.pow_add]; congr 1; omega
    omega
  rw [shrA_of_lt31 _ hxlt31, shrA_of_lt31 _ hylt31]
  have cancelx : ((q.x >>> (30 - L)) <<< (30 - L)) >>> (30 - L) = q.x >>> (30 - L) := by
    rw [Nat.shiftLeft_eq, Nat.shiftRight_eq_div_pow]
    exact Nat.mul_div_cancel _ (Nat.pos_pow_of_pos _ (by omega))
  have cancely : ((q.y >>> (30 - L)) <<< (30 - L)) >>> (30 - L) = q.y >>> (30 - L) := by
    rw [Nat.shiftLeft_eq, Nat.shiftRight_eq_div_pow]
    exact Nat.mul_div_cancel _ (Nat.pos_pow_of_pos _ (by omega))
  rw [cancelx, cancely]

theorem p4est_quadrant_morton_roundtrip_witness :
    p4est_quadrant_set_morton 1
        (p4est_quadrant_linear_id (Quadrant.mk (3 * 2 ^ 28) (2 ^ 28) 2) 1) =
      truncAt (Quadrant.mk (3 * 2 ^ 28) (2 ^ 28) 2) 1 ∧
      p4est_quadrant_linear_id
          (p4est_quadrant_set_morton 1
            (p4est_quadrant_linear_id (Quadrant.mk (3 * 2 ^ 28) (2 ^ 28) 2) 1)) 1 =
        p4est_quadrant_linear_id (Quadrant.mk (3 * 2 ^ 28) (2 ^ 28) 2) 1 :=
  p4est_quadrant_morton_roundtrip (Quadrant.mk (3 * 2 ^ 28) (2 ^ 28) 2) 1
    (by norm_num) (by norm_num) (by decide) (by norm_num)

end Claim2

section Claim3

open P4est

theorem SC_LOG2_32_of_ne {n : Nat} (h : n ≠ 0) : SC_LOG2_32 n = (n.log2 : Int) := by
  rw [SC_LOG2_32, if_neg h]

theorem neg_one_le_SC_LOG2_32 (n : Nat) : -1 ≤ SC_LOG2_32 n := by
  rw [SC_LOG2_32]
  split
  · omega
  · have h : (0 : Int) ≤ (Nat.log2 n : Int) := by positivity
    omega

theorem shifted_eq_of_xor_lt {a b s : Nat} (h : a ^^^ b < 2 ^ s) : a >>> s = b >>> s := by
  apply Nat.eq_of_testBit_eq
  intro j
  rw [Nat.testBit_shiftRight, Nat.testBit_shiftRight]
  have hb : (a ^^^ b).testBit (s + j) = false :=
    Nat.testBit_lt_two_pow (Nat.lt_of_lt_of_le h (Nat.pow_le_pow_right (by omega) (by omega)))
  rw [Nat.testBit_xor] at hb
  cases h1 : a.testBit (s + j) <;> cases h2 : b.testBit (s + j) <;> simp_all

theorem log2_lt_32 {n : Nat} (h : n < 2 ^ 32) (h0 : n ≠ 0) : n.log2 < 32 :=
  log2_lt_of_lt_two_pow h0 h

/-- The core ordering fact in 2D: when two quadrant positions have different
linear ids at a common level m, the axis-by-highest-differing-bit comparison
of the raw coordinate patterns (which is what p4est_quadrant_compare computes
on extended quadrants) agrees with the order of the interleaved ids. -/
theorem interleave_order_core (qx qy rx ry m : Nat)
    (hqx : qx < 2 ^ 32) (hqy : qy < 2 ^ 32) (hrx : rx < 2 ^ 32) (hry : ry < 2 ^ 32)
    (hm : m ≤ 30)
    (hne : linidAux (qx >>> (30 - m)) (qy >>> (30 - m)) (m + 2) ≠
      linidAux (rx >>> (30 - m)) (ry >>> (30 - m)) (m + 2)) :
    ((if SC_LOG2_32 (qy ^^^ ry) ≥ SC_LOG2_32 (qx ^^^ rx) then qy < ry else qx < rx) ↔
      linidAux (qx >>> (30 - m)) (qy >>> (30 - m)) (m + 2) <
        linidAux (rx >>> (30 - m)) (ry >>> (30 - m)) (m + 2)) := by
  set s := 30 - m with hs
  set A := linidAux (qx >>> s) (qy >>> s) (m + 2) with hA
  set B := linidAux (rx >>> s) (ry >>> s) (m + 2) with hB
  have hids_of_small : qx ^^^ rx < 2 ^ s → qy ^^^ ry < 2 ^ s → A = B := by
    intro h1 h2
    rw [hA, hB, shifted_eq_of_xor_lt h1, shifted_eq_of_xor_lt h2]
  by_cases hyx : SC_LOG2_32 (qy ^^^ ry) ≥ SC_LOG2_32 (qx ^^^ rx)
  · rw [if_pos hyx]
    -- the y axis decides
    have hy0 : qy ^^^ ry ≠ 0 := by
      intro h0
      have hylog : SC_LOG2_32 (qy ^^^ ry) = -1 := by rw [SC_LOG2_32, if_pos h0]
      have hx0 : qx ^^^ rx = 0 := by
        by_contra hxne
        have := SC_LOG2_32_of_ne hxne
        have hge := hyx
        rw [hylog, this] at hge
        have : (0 : Int) ≤ (qx ^^^ rx).log2 := by positivity
        omega
      exact hne (hids_of_small (by rw [hx0]; positivity) (by rw [h0]; positivity))
    have hyne : qy ≠ ry := fun hc => hy0 (by rw [hc]; simp)
    set jy := (qy ^^^ ry).log2 with hjy
    have hylog := SC_LOG2_32_of_ne hy0
    have hjy31 : jy < 32 := log2_lt_32 (Nat.xor_lt_two_pow hqy hry) hy0
    have hsjy : s ≤ jy := by
      by_contra hlt
      have h1 : qy ^^^ ry < 2 ^ s := lt_two_pow_of_log2_lt (by omega)
      have h2 : qx ^^^ rx < 2 ^ s := by
        by_cases hx0 : qx ^^^ rx = 0
        · rw [hx0]
          positivity
        · have := SC_LOG2_32_of_ne hx0
          apply lt_two_pow_of_log2_lt
          rw [this, hylog] at hyx
          omega
      exact hne (hids_of_small h2 h1)
    set K := 2 * (jy - s) + 1 with hK
    have hAK : A.testBit K = qy.testBit jy := by
      rw [hA, hK, testBit_linidAux_odd, decide_eq_true (show jy - s < m + 2 by omega),
        Bool.true_and, Nat.testBit_shiftRight]
      congr 1
      omega
    have hBK : B.testBit K = ry.testBit jy := by
      rw [hB, hK, testBit_linidAux_odd, decide_eq_true (show jy - s < m + 2 by omega),
        Bool.true_and, Nat.testBit_shiftRight]
      congr 1
      omega
    have hdiff := testBit_ne_of_xor_log2 hyne
    have hKne : A.testBit K ≠ B.testBit K := by
      rw [hAK, hBK]
      exact hdiff
    have habove : ∀ k, K < k → A.testBit k = B.testBit k := by
      intro k hk
      rcases Nat.even_or_odd k with he | ho
      · obtain ⟨j, hj⟩ := he
        have hj2 : k = 2 * j := by omega
        rw [hA, hB, hj2, testBit_linidAux_even, testBit_linidAux_even]
        by_cases hjc : j < m + 2
        · rw [Nat.testBit_shiftRight, Nat.testBit_shiftRight]
          have hagree : qx.testBit (s + j) = rx.testBit (s + j) := by
            have hxb : (qx ^^^ rx).testBit (s + j) = false := by
              by_cases hx0 : qx ^^^ rx = 0
              · rw [hx0]
                exact Nat.zero_testBit _
              · apply testBit_false_of_log2_lt
                have := SC_LOG2_32_of_ne hx0
                rw [this, hylog] at hyx
                omega
            rw [Nat.testBit_xor] at hxb
            cases h1 : qx.testBit (s + j) <;> cases h2 : rx.testBit (s + j) <;> simp_all
          rw [hagree]
        · rw [decide_eq_false hjc]
          simp
      · obtain ⟨j, hj⟩ := ho
        rw [hA, hB, hj, testBit_linidAux_odd, testBit_linidAux_odd]
        by_cases hjc : j < m + 2
        · rw [Nat.testBit_shiftRight, Nat.testBit_shiftRight]
          have hagree : qy.testBit (s + j) = ry.testBit (s + j) := by
            have hyb : (qy ^^^ ry).testBit (s + j) = false := by
              apply testBit_false_of_log2_lt
              omega
            rw [Nat.testBit_xor] at hyb
            cases h1 : qy.testBit (s + j) <;> cases h2 : ry.testBit (s + j) <;> simp_all
          rw [hagree]
        · rw [decide_eq_false hjc]
          simp
    rw [lt_iff_testBit_xor_log2 hyne, lt_iff_testBit_of_agree_above hKne habove, hBK]
  · rw [if_neg hyx]
    -- the x axis decides
    have hx0 : qx ^^^ rx ≠ 0 := by
      intro h0
      apply hyx
      have hxm1 : SC_LOG2_32 (qx ^^^ rx) = -1 := by rw [SC_LOG2_32, if_pos h0]
      rw [hxm1]
      exact neg_one_le_SC_LOG2_32 _
    have hxne : qx ≠ rx := fun hc => hx0 (by rw [hc]; simp)
    set jx := (qx ^^^ rx).log2 with hjx
    have hxlog := SC_LOG2_32_of_ne hx0
    have hjx31 : jx < 32 := log2_lt_32 (Nat.xor_lt_two_pow hqx hrx) hx0
    have hylt : SC_LOG2_32 (qy ^^^ ry) < (jx : Int) := by
      have := Int.lt_of_not_ge hyx
      rw [hxlog] at this
      exact this
    have hsjx : s ≤ jx := by
      by_contra hlt
      have h1 : qx ^^^ rx < 2 ^ s := lt_two_pow_of_log2_lt (by omega)
      have h2 : qy ^^^ ry < 2 ^ s := by
        by_cases hy0 : qy ^^^ ry = 0
        · rw [hy0]
          positivity
        · have := SC_LOG2_32_of_ne hy0
          apply lt_two_pow_of_log2_lt
          rw [this] at hylt
          omega
      exact hne (hids_of_small h1 h2)
    set K := 2 * (jx - s) with hK
    have hAK : A.testBit K = qx.testBit jx := by
      rw [hA, hK, testBit_linidAux_even, decide_eq_true (show jx - s < m + 2 by omega),
        Bool.true_and, Nat.testBit_shiftRight]
      congr 1
      omega
    have hBK : B.testBit K = rx.testBit jx := by
      rw [hB, hK, testBit_linidAux_even, decide_eq_true (show jx - s < m + 2 by omega),
        Bool.true_and, Nat.testBit_shiftRight]
      congr 1
      omega
    have hdiff := testBit_ne_of_xor_log2 hxne
    have hKne : A.testBit K ≠ B.testBit K := by
      rw [hAK, hBK]
      exact hdiff
    have habove : ∀ k, K < k → A.testBit k = B.testBit k := by
      intro k hk
      rcases Nat.even_or_odd k with he | ho
      · obtain ⟨j, hj⟩ := he
        have hj2 : k = 2 * j := by omega
        rw [hA, hB, hj2, testBit_linidAux_even, testBit_linidAux_even]
        by_cases hjc : j < m + 2
        · rw [Nat.testBit_shiftRight, Nat.testBit_shiftRight]
          have hagree : qx.testBit (s + j) = rx.testBit (s + j) := by
            have hxb : (qx ^^^ rx).testBit (s + j) = false := by
              apply testBit_false_of_log2_lt
              omega
            rw [Nat.testBit_xor] at hxb
            cases h1 : qx.testBit (s + j) <;> cases h2 : rx.testBit (s + j) <;> simp_all
          rw [hagree]
        · rw [decide_eq_false hjc]
          simp
      · obtain ⟨j, hj⟩ := ho
        rw [hA, hB, hj, testBit_linidAux_odd, testBit_linidAux_odd]
        by_cases hjc : j < m + 2
        · rw [Nat.testBit_shiftRight, Nat.testBit_shiftRight]
          have hagree : qy.testBit (s + j) = ry.testBit (s + j) := by
            have hyb : (qy ^^^ ry).testBit (s + j) = false := by
              by_cases hy0 : qy ^^^ ry = 0
              · rw [hy0]
                exact Nat.zero_testBit _
              · apply testBit_false_of_log2_lt
                have := SC_LOG2_32_of_ne hy0
                rw [this] at hylt
                omega
            rw [Nat.testBit_xor] at hyb
            cases h1 : qy.testBit (s + j) <;> cases h2 : ry.testBit (s + j) <;> simp_all
          rw [hagree]
        · rw [decide_eq_false hjc]
          simp
    rw [lt_iff_testBit_xor_log2 hxne, lt_iff_testBit_of_agree_above hKne habove, hBK]
theorem ternary_neg (d : Int) :
    ((if d = 0 then (0 : Int) else if d < 0 then -1 else 1) < 0) ↔ d < 0 := by
  by_cases h0 : d = 0
  · rw [if_pos h0]
    omega
  · rw [if_neg h0]
    by_cases hneg : d < 0
    · rw [if_pos hneg]
      omega
    · rw [if_neg hneg]
      omega

theorem p_pattern {a : Nat} (ha : a < 2 ^ 32) :
    toVal a + (if 0 ≤ toVal a then 0 else (2 : Int) ^ (P4EST_MAXLEVEL + 2)) = (a : Int) := by
  rw [P4EST_MAXLEVEL]
  by_cases h : a < 2 ^ 31
  · rw [toVal_of_lt h, if_pos (by positivity)]
    ring
  · rw [toVal_of_ge (Nat.le_of_not_lt h)]
    rw [if_neg (by
      have : (a : Int) < 2 ^ 32 := by exact_mod_cast ha
      omega)]
    norm_num

theorem compare_lt_iff_pattern (q r : Quadrant)
    (hqx : q.x < 2 ^ 32) (hqy : q.y < 2 ^ 32) (hrx : r.x < 2 ^ 32) (hry : r.y < 2 ^ 32)
    (hcne : ¬ (q.x = r.x ∧ q.y = r.y)) :
    (p4est_quadrant_compare q r < 0 ↔
      (if SC_LOG2_32 (q.y ^^^ r.y) ≥ SC_LOG2_32 (q.x ^^^ r.x) then q.y < r.y
        else q.x < r.x)) := by
  simp only [p4est_quadrant_compare]
  rw [if_neg (by
    rw [Nat.xor_eq_zero, Nat.xor_eq_zero]
    tauto)]
  by_cases hyx : SC_LOG2_32 (q.y ^^^ r.y) ≥ SC_LOG2_32 (q.x ^^^ r.x)
  · rw [if_pos hyx, if_pos hyx, ternary_neg, p_pattern hqy, p_pattern hry]
    constructor
    · intro h
      exact_mod_cast Int.lt_of_sub_neg h
    · intro h
      have : (q.y : Int) < (r.y : Int) := by exact_mod_cast h
      omega
  · rw [if_neg hyx, if_neg hyx, ternary_neg, p_pattern hqx, p_pattern hrx]
    constructor
    · intro h
      exact_mod_cast Int.lt_of_sub_neg h
    · intro h
      have : (q.x : Int) < (r.x : Int) := by exact_mod_cast h
      omega

theorem linear_id_clean {q : Quadrant} (L : Nat)
    (hx : q.x < 2 ^ 31) (hy : q.y < 2 ^ 31) :
    p4est_quadrant_linear_id q L =
      linidAux (q.x >>> (30 - L)) (q.y >>> (30 - L)) (L + 2) := by
  rw [p4est_quadrant_linear_id, P4EST_MAXLEVEL, shrA_of_lt31 _ hx, shrA_of_lt31 _ hy]

/-- C3 fails as stated: the root quadrant and its first child occupy the same
position, compare sorts the shallower first, yet their linear ids at the
common level 1 coincide. -/
theorem p4est_quadrant_linear_id_monotone_counterexample :
    p4est_quadrant_is_valid (Quadrant.mk 0 0 0) = true ∧
      p4est_quadrant_is_valid (Quadrant.mk 0 0 1) = true ∧
      p4est_quadrant_compare (Quadrant.mk 0 0 0) (Quadrant.mk 0 0 1) < 0 ∧
      max (Quadrant.mk 0 0 0).level (Quadrant.mk 0 0 1).level ≤ 1 ∧
      ¬ (p4est_quadrant_linear_id (Quadrant.mk 0 0 0) 1 <
          p4est_quadrant_linear_id (Quadrant.mk 0 0 1) 1) := by
  refine ⟨by decide, by decide, by decide, by decide, by decide⟩

/-- C3 (amended): for valid quadrants that do not occupy the same position
(coordinates differ on some axis), the linear id at any common level
L ≥ max(a.level, b.level) is strictly increasing along the compare order. -/
theorem p4est_quadrant_linear_id_strict_monotone :
    ∀ (a b : Quadrant) (L : Nat),
      a.x < 2 ^ 32 → a.y < 2 ^ 32 → b.x < 2 ^ 32 → b.y < 2 ^ 32 →
      p4est_quadrant_is_valid a = true → p4est_quadrant_is_valid b = true →
      a.level ≤ L → b.level ≤ L → L ≤ P4EST_MAXLEVEL →
      (a.x ≠ b.x ∨ a.y ≠ b.y) →
      p4est_quadrant_compare a b < 0 →
      p4est_quadrant_linear_id a L < p4est_quadrant_linear_id b L := by
  intro a b L hax hay hbx hby hva hvb haL hbL hLM hne hcmp
  rw [P4EST_MAXLEVEL] at hLM
  simp only [p4est_quadrant_is_valid, p4est_quadrant_is_inside_root, Bool.and_eq_true,
    decide_eq_true_eq, P4EST_ROOT_LEN, P4EST_QMAXLEVEL, P4EST_QUADRANT_LEN] at hva hvb
  obtain ⟨⟨⟨hla, haxal⟩, hayal⟩, ⟨⟨hax0, hax1⟩, hay0⟩, hay1⟩ := hva
  obtain ⟨⟨⟨hlb, hbxal⟩, hbyal⟩, ⟨⟨hbx0, hbx1⟩, hby0⟩, hby1⟩ := hvb
  have hax31 : a.x < 2 ^ 31 := (toVal_nonneg_iff hax).mp hax0
  have hay31 : a.y < 2 ^ 31 := (toVal_nonneg_iff hay).mp hay0
  have hbx31 : b.x < 2 ^ 31 := (toVal_nonneg_iff hbx).mp hbx0
  have hby31 : b.y < 2 ^ 31 := (toVal_nonneg_iff hby).mp hby0
  have haxlow := land_mask_eq_zero_iff.mp haxal
  have haylow := land_mask_eq_zero_iff.mp hayal
  have hbxlow := land_mask_eq_zero_iff.mp hbxal
  have hbylow := land_mask_eq_zero_iff.mp hbyal
  have haxr : (a.x >>> (30 - L)) <<< (30 - L) = a.x :=
    shiftRight_shiftLeft_of_aligned (fun i hi => haxlow i (by omega))
  have hayr : (a.y >>> (30 - L)) <<< (30 - L) = a.y :=
    shiftRight_shiftLeft_of_aligned (fun i hi => haylow i (by omega))
  have hbxr : (b.x >>> (30 - L)) <<< (30 - L) = b.x :=
    shiftRight_shiftLeft_of_aligned (fun i hi => hbxlow i (by omega))
  have hbyr : (b.y >>> (30 - L)) <<< (30 - L) = b.y :=
    shiftRight_shiftLeft_of_aligned (fun i hi => hbylow i (by omega))
  have hidne : linidAux (a.x >>> (30 - L)) (a.y >>> (30 - L)) (L + 2) ≠
      linidAux (b.x >>> (30 - L)) (b.y >>> (30 - L)) (L + 2) := by
    intro hideq
    have hxs : a.x >>> (30 - L) = b.x >>> (30 - L) := by
      have := congrArg (fun t => t.testBit 0) hideq
      apply Nat.eq_of_testBit_eq
      intro j
      have he := congrArg (fun t => t.testBit (2 * j)) hideq
      simp only [testBit_linidAux_even] at he
      by_cases hj : j < L + 2
      · rw [decide_eq_true hj] at he
        simpa using he
      · have h1 : (a.x >>> (30 - L)).testBit j = false := by
          apply Nat.testBit_lt_two_pow
          calc a.x >>> (30 - L) < 2 ^ (32 - (30 - L)) := by
                apply shiftRight_lt_of_lt
                have : 32 - (30 - L) + (30 - L) = 32 := by omega
                rw [this]
                exact hax
          _ ≤ 2 ^ j := Nat.pow_le_pow_right (by omega) (by omega)
        have h2 : (b.x >>> (30 - L)).testBit j = false := by
          apply Nat.testBit_lt_two_pow
          calc b.x >>> (30 - L) < 2 ^ (32 - (30 - L)) := by
                apply shiftRight_lt_of_lt
                have : 32 - (30 - L) + (30 - L) = 32 := by omega
                rw [this]
                exact hbx
          _ ≤ 2 ^ j := Nat.pow_le_pow_right (by omega) (by omega)
        rw [h1, h2]
    have hys : a.y >>> (30 - L) = b.y >>> (30 - L) := by
      apply Nat.eq_of_testBit_eq
      intro j
      have ho := congrArg (fun t => t.testBit (2 * j + 1)) hideq
      simp only [testBit_linidAux_odd] at ho
      by_cases hj : j < L + 2
      · rw [decide_eq_true hj] at ho
        simpa using ho
      · have h1 : (a.y >>> (30 - L)).testBit j = false := by
          apply Nat.testBit_lt_two_pow
          calc a.y >>> (30 - L) < 2 ^ (32 - (30 - L)) := by
                apply shiftRight_lt_of_lt
                have : 32 - (30 - L) + (30 - L) = 32 := by omega
                rw [this]
                exact hay
          _ ≤ 2 ^ j := Nat.pow_le_pow_right (by omega) (by omega)
        have h2 : (b.y >>> (30 - L)).testBit j = false := by
          apply Nat.testBit_lt_two_pow
          calc b.y >>> (30 - L) < 2 ^ (32 - (30 - L)) := by
                apply shiftRight_lt_of_lt
                have : 32 - (30 - L) + (30 - L) = 32 := by omega
                rw [this]
                exact hby
          _ ≤ 2 ^ j := Nat.pow_le_pow_right (by omega) (by omega)
        rw [h1, h2]
    rcases hne with h | h
    · exact h (by rw [← haxr, ← hbxr, hxs])
    · exact h (by rw [← hayr, ← hbyr, hys])
  have hcore := interleave_order_core a.x a.y b.x b.y L hax hay hbx hby (by omega) hidne
  have hcmp2 := (compare_lt_iff_pattern a b hax hay hbx hby (by tauto)).mp hcmp
  rw [linear_id_clean L hax31 hay31, linear_id_clean L hbx31 hby31]
  exact hcore.mp hcmp2


theorem p4est_quadrant_linear_id_strict_monotone_witness :
    p4est_quadrant_linear_id (Quadrant.mk 0 0 0) 1 <
      p4est_quadrant_linear_id (Quadrant.mk (2 ^ 29) 0 1) 1 :=
  p4est_quadrant_linear_id_strict_monotone (Quadrant.mk 0 0 0) (Quadrant.mk (2 ^ 29) 0 1) 1
    (by norm_num) (by norm_num) (by norm_num) (by norm_num)
    (by decide) (by decide) (by norm_num) (by norm_num) (by decide)
    (by decide) (by norm_num [p4est_quadrant_compare, SC_LOG2_32, toVal, Nat.log2])

end Claim3

section Claim5

open P4est

theorem testBit_shrA {x s j : Nat} (hx : x < 2 ^ 32) (hs : s ≤ 30) (hj : j < 32 - s) :
    (shrA x s).testBit j = x.testBit (s + j) := by
  by_cases h31 : x < 2 ^ 31
  · rw [shrA_of_lt31 _ h31, Nat.testBit_shiftRight]
  · have hxv := toVal_of_ge (Nat.le_of_not_lt h31)
    have hp : ((2 : Int) ^ (32 - s)) * 2 ^ s = 2 ^ 32 := by
      rw [← pow_add]
      congr 1
      omega
    have hsplit : toVal x = (x : Int) + (-(2 ^ (32 - s))) * 2 ^ s := by
      rw [hxv]
      rw [neg_mul, hp]
      ring
    have hfd : (toVal x).fdiv (2 ^ s) = ((x / 2 ^ s : Nat) : Int) - 2 ^ (32 - s) := by
      rw [Int.fdiv_eq_ediv _ (by positivity), hsplit,
        Int.add_mul_ediv_right _ _ (by positivity : ((2 : Int) ^ s) ≠ 0)]
      have hcast : ((2 : Int) ^ s) = ((2 ^ s : Nat) : Int) := by push_cast; ring
      rw [hcast, ← Int.ofNat_ediv]
      ring
    have hdivlt : x / 2 ^ s < 2 ^ (32 - s) := by
      rw [Nat.div_lt_iff_lt_mul (Nat.pos_pow_of_pos s (by omega)), ← Nat.pow_add]
      have h32 : 32 - s + s = 32 := by omega
      rw [h32]
      exact hx
    set v : Int := ((x / 2 ^ s : Nat) : Int) - 2 ^ (32 - s) with hv
    have hvneg : v < 0 := by
      have : ((x / 2 ^ s : Nat) : Int) < 2 ^ (32 - s) := by exact_mod_cast hdivlt
      omega
    have hvlb : -(2 ^ 64 : Int) ≤ v := by
      have h1 : (0 : Int) ≤ ((x / 2 ^ s : Nat) : Int) := by positivity
      have h2 : (2 : Int) ^ (32 - s) ≤ 2 ^ 64 := by
        apply pow_le_pow_right₀ (by norm_num)
        omega
      omega
    have hmod : v % (2 ^ 64 : Int) = v + 2 ^ 64 := by
      have h1 : (v + 2 ^ 64 * 1) % (2 ^ 64 : Int) = v % 2 ^ 64 :=
        Int.add_mul_emod_self_left v (2 ^ 64) 1
      rw [mul_one] at h1
      rw [← h1, Int.emod_eq_of_lt (by omega) (by omega)]
    have hnat : v + 2 ^ 64 = ((x / 2 ^ s + (2 ^ 64 - 2 ^ (32 - s)) : Nat) : Int) := by
      have hle : (2 : Nat) ^ (32 - s) ≤ 2 ^ 64 := Nat.pow_le_pow_right (by omega) (by omega)
      rw [hv, Nat.cast_add, Nat.cast_sub hle]
      push_cast
      ring
    have hshr : shrA x s = x / 2 ^ s + (2 ^ 64 - 2 ^ (32 - s)) := by
      rw [shrA, hfd, hmod, hnat, Int.toNat_ofNat]
    rw [hshr]
    have hrepr : x / 2 ^ s + (2 ^ 64 - 2 ^ (32 - s)) =
        2 ^ (32 - s) * (2 ^ (32 + s) - 1) + x / 2 ^ s := by
      have h1 : (2 : Nat) ^ (32 - s) * (2 ^ (32 + s) - 1) =
          2 ^ (32 - s) * 2 ^ (32 + s) - 2 ^ (32 - s) := by
        rw [Nat.mul_sub]
        ring_nf
      have h2 : (2 : Nat) ^ (32 - s) * 2 ^ (32 + s) = 2 ^ 64 := by
        rw [← Nat.pow_add]
        congr 1
        omega
      rw [h1, h2]
      have h3 : (2 : Nat) ^ (32 - s) ≤ 2 ^ 64 := Nat.pow_le_pow_right (by omega) (by omega)
      omega
    rw [hrepr, Nat.testBit_mul_pow_two_add _ hdivlt, if_pos hj, ← Nat.testBit_shiftRight,
      Nat.shiftRight_eq_div_pow]

theorem linidAux_congr {x y xp yp c : Nat}
    (hx : ∀ j, j < c → x.testBit j = xp.testBit j)
    (hy : ∀ j, j < c → y.testBit j = yp.testBit j) :
    linidAux x y c = linidAux xp yp c := by
  apply Nat.eq_of_testBit_eq
  intro k
  rcases Nat.even_or_odd k with he | ho
  · obtain ⟨j, hj⟩ := he
    have hj2 : k = 2 * j := by omega
    rw [hj2, testBit_linidAux_even, testBit_linidAux_even]
    by_cases hjc : j < c
    · rw [hx j hjc]
    · rw [decide_eq_false hjc]
      simp
  · obtain ⟨j, hj⟩ := ho
    rw [hj, testBit_linidAux_odd, testBit_linidAux_odd]
    by_cases hjc : j < c
    · rw [hy j hjc]
    · rw [decide_eq_false hjc]
      simp

theorem linear_id_eq_shift {q : Quadrant} (m : Nat)
    (hx : q.x < 2 ^ 32) (hy : q.y < 2 ^ 32) (hm : m ≤ 30) :
    p4est_quadrant_linear_id q m =
      linidAux (q.x >>> (30 - m)) (q.y >>> (30 - m)) (m + 2) := by
  rw [p4est_quadrant_linear_id, P4EST_MAXLEVEL]
  apply linidAux_congr
  · intro j hj
    rw [testBit_shrA hx (by omega) (by omega), Nat.testBit_shiftRight]
  · intro j hj
    rw [testBit_shrA hy (by omega) (by omega), Nat.testBit_shiftRight]

theorem testBit_truncAt_x (q : Quadrant) (l i : Nat) :
    (truncAt q l).x.testBit i = (decide (30 - l ≤ i) && q.x.testBit i) := by
  rw [truncAt]
  simp only
  rw [Nat.testBit_shiftLeft]
  by_cases h : 30 - l ≤ i
  · rw [decide_eq_true h, Nat.testBit_shiftRight]
    have he : 30 - l + (i - (30 - l)) = i := by omega
    rw [he]
  · rw [decide_eq_false h]
    simp

theorem testBit_truncAt_y (q : Quadrant) (l i : Nat) :
    (truncAt q l).y.testBit i = (decide (30 - l ≤ i) && q.y.testBit i) := by
  rw [truncAt]
  simp only
  rw [Nat.testBit_shiftLeft]
  by_cases h : 30 - l ≤ i
  · rw [decide_eq_true h, Nat.testBit_shiftRight]
    have he : 30 - l + (i - (30 - l)) = i := by omega
    rw [he]
  · rw [decide_eq_false h]
    simp

theorem truncAt_self {q : Quadrant}
    (hax : ∀ i, i < 30 - q.level → q.x.testBit i = false)
    (hay : ∀ i, i < 30 - q.level → q.y.testBit i = false) :
    truncAt q q.level = q := by
  rw [truncAt, shiftRight_shiftLeft_of_aligned hax, shiftRight_shiftLeft_of_aligned hay]

theorem truncAt_x_lt (q : Quadrant) (l : Nat) (hx : q.x < 2 ^ 32) :
    (truncAt q l).x < 2 ^ 32 := by
  rw [truncAt]
  simp only
  rw [Nat.shiftLeft_eq, Nat.shiftRight_eq_div_pow]
  calc q.x / 2 ^ (30 - l) * 2 ^ (30 - l) ≤ q.x := Nat.div_mul_le_self _ _
  _ < 2 ^ 32 := hx

theorem truncAt_y_lt (q : Quadrant) (l : Nat) (hy : q.y < 2 ^ 32) :
    (truncAt q l).y < 2 ^ 32 := by
  rw [truncAt]
  simp only
  rw [Nat.shiftLeft_eq, Nat.shiftRight_eq_div_pow]
  calc q.y / 2 ^ (30 - l) * 2 ^ (30 - l) ≤ q.y := Nat.div_mul_le_self _ _
  _ < 2 ^ 32 := hy

theorem parent_truncAt (q : Quadrant) (l : Nat) (hl : 1 ≤ l) (hl30 : l ≤ 30)
    (hx : q.x < 2 ^ 32) (hy : q.y < 2 ^ 32) :
    p4est_quadrant_parent (truncAt q l) = truncAt q (l - 1) := by
  rw [p4est_quadrant_parent]
  have hlv : (truncAt q l).level = l := rfl
  have hcx : (truncAt q l).x &&& not32 (P4EST_QUADRANT_LEN (truncAt q l).level) =
      (truncAt q (l - 1)).x := by
    apply Nat.eq_of_testBit_eq
    intro i
    rw [hlv, P4EST_QUADRANT_LEN, Nat.testBit_and, testBit_not32, Nat.testBit_two_pow,
      testBit_truncAt_x, testBit_truncAt_x]
    by_cases hi32 : i < 32
    · rw [decide_eq_true hi32]
      by_cases hieq : 30 - l = i
      · rw [decide_eq_true hieq, decide_eq_false (show ¬ (30 - (l - 1) ≤ i) by omega)]
        simp
      · rw [decide_eq_false hieq]
        by_cases hile : 30 - l ≤ i
        · rw [decide_eq_true hile, decide_eq_true (show 30 - (l - 1) ≤ i by omega)]
          simp
        · rw [decide_eq_false hile, decide_eq_false (show ¬ (30 - (l - 1) ≤ i) by omega)]
          simp
    · have h1 : q.x.testBit i = false :=
        Nat.testBit_lt_two_pow (Nat.lt_of_lt_of_le hx
          (Nat.pow_le_pow_right (by omega) (by omega)))
      rw [h1]
      simp
  have hcy : (truncAt q l).y &&& not32 (P4EST_QUADRANT_LEN (truncAt q l).level) =
      (truncAt q (l - 1)).y := by
    apply Nat.eq_of_testBit_eq
    intro i
    rw [hlv, P4EST_QUADRANT_LEN, Nat.testBit_and, testBit_not32, Nat.testBit_two_pow,
      testBit_truncAt_y, testBit_truncAt_y]
    by_cases hi32 : i < 32
    · rw [decide_eq_true hi32]
      by_cases hieq : 30 - l = i
      · rw [decide_eq_true hieq, decide_eq_false (show ¬ (30 - (l - 1) ≤ i) by omega)]
        simp
      · rw [decide_eq_false hieq]
        by_cases hile : 30 - l ≤ i
        · rw [decide_eq_true hile, decide_eq_true (show 30 - (l - 1) ≤ i by omega)]
          simp
        · rw [decide_eq_false hile, decide_eq_false (show ¬ (30 - (l - 1) ≤ i) by omega)]
          simp
    · have h1 : q.y.testBit i = false :=
        Nat.testBit_lt_two_pow (Nat.lt_of_lt_of_le hy
          (Nat.pow_le_pow_right (by omega) (by omega)))
      rw [h1]
      simp
  rw [hcx, hcy, hlv]
  rfl

theorem land_two_pow_eq_zero_iff {x k : Nat} :
    x &&& 2 ^ k = 0 ↔ x.testBit k = false := by
  rw [land_eq_zero_iff_testBit]
  constructor
  · intro h
    cases hb : x.testBit k
    · rfl
    · have h2 := h k hb
      rw [Nat.testBit_two_pow] at h2
      simp at h2
  · intro h i hx
    rw [Nat.testBit_two_pow]
    by_cases hik : k = i
    · rw [← hik] at hx
      rw [h] at hx
      exact absurd hx (by simp)
    · simp [hik]

theorem land_eq_self_iff {x m : Nat} :
    x &&& m = m ↔ ∀ i, m.testBit i = true → x.testBit i = true := by
  constructor
  · intro h i hm
    have h2 := congrArg (fun t => t.testBit i) h
    simp only [Nat.testBit_and] at h2
    rw [hm, Bool.and_true] at h2
    exact h2
  · intro h
    apply Nat.eq_of_testBit_eq
    intro i
    rw [Nat.testBit_and]
    cases hm : m.testBit i
    · simp
    · rw [h i hm]
      rfl

theorem testBit_two_pow_sub_two_pow {A B p : Nat} (h : B ≤ A) :
    (2 ^ A - 2 ^ B).testBit p = (decide (B ≤ p) && decide (p < A)) := by
  have hrepr : 2 ^ A - 2 ^ B = 2 ^ B * (2 ^ (A - B) - 1) := by
    rw [Nat.mul_sub, Nat.mul_one, ← Nat.pow_add]
    congr 2
    omega
  rw [hrepr, Nat.testBit_mul_pow_two, Nat.testBit_two_pow_sub_one]
  by_cases h1 : B ≤ p
  · rw [decide_eq_true h1, Bool.true_and, Bool.true_and]
    by_cases h2 : p < A
    · rw [decide_eq_true h2, decide_eq_true (show p - B < A - B by omega)]
    · rw [decide_eq_false h2, decide_eq_false (show ¬ (p - B < A - B) by omega)]
  · rw [decide_eq_false h1, Bool.false_and, Bool.false_and]

theorem child_id_truncAt (q : Quadrant) (l : Nat) (hl : 1 ≤ l) :
    (p4est_quadrant_child_id (truncAt q l) = 3 ↔
      q.x.testBit (30 - l) = true ∧ q.y.testBit (30 - l) = true) := by
  rw [p4est_quadrant_child_id, p4est_quadrant_ancestor_id]
  have hlv : (truncAt q l).level = l := rfl
  rw [hlv, if_neg (by omega), P4EST_QUADRANT_LEN]
  have hxb : ((truncAt q l).x &&& 2 ^ (30 - l) = 0) ↔ q.x.testBit (30 - l) = false := by
    rw [land_two_pow_eq_zero_iff, testBit_truncAt_x, decide_eq_true (Nat.le_refl _)]
    simp
  have hyb : ((truncAt q l).y &&& 2 ^ (30 - l) = 0) ↔ q.y.testBit (30 - l) = false := by
    rw [land_two_pow_eq_zero_iff, testBit_truncAt_y, decide_eq_true (Nat.le_refl _)]
    simp
  cases hx : q.x.testBit (30 - l) <;> cases hy : q.y.testBit (30 - l)
  · rw [if_neg (by simp [hxb.mpr hx]), if_neg (by simp [hyb.mpr hy])]
    simp
  · rw [if_neg (by simp [hxb.mpr hx]), if_pos (by rw [Ne, hyb, hy]; simp)]
    simp
  · rw [if_pos (by rw [Ne, hxb, hx]; simp), if_neg (by simp [hyb.mpr hy])]
    simp
  · rw [if_pos (by rw [Ne, hxb, hx]; simp), if_pos (by rw [Ne, hyb, hy]; simp)]
    simp

theorem nextDclimb_stop (fuel : Nat) (a : Quadrant) (bl : Nat) (h : ¬ bl < a.level) :
    nextDclimb fuel a bl = some a := by
  rw [nextDclimb.eq_def, if_neg h]

theorem nextDclimb_fail (fuel : Nat) (a : Quadrant) (bl : Nat) (h : bl < a.level)
    (h2 : p4est_quadrant_child_id a ≠ 3) : nextDclimb fuel a bl = none := by
  rw [nextDclimb.eq_def, if_pos h, if_pos (by simpa [P4EST_CHILDREN] using h2)]

theorem nextDclimb_step (f : Nat) (a : Quadrant) (bl : Nat) (h : bl < a.level)
    (h2 : p4est_quadrant_child_id a = 3) :
    nextDclimb (f + 1) a bl = nextDclimb f (p4est_quadrant_parent a) bl := by
  rw [nextDclimb.eq_def, if_pos h, if_neg (by simp [P4EST_CHILDREN, h2])]

theorem nextDclimb_zero_fail (a : Quadrant) (bl : Nat) (h : bl < a.level) :
    nextDclimb 0 a bl = none := by
  rw [nextDclimb.eq_def, if_pos h]
  by_cases h2 : p4est_quadrant_child_id a ≠ P4EST_CHILDREN - 1
  · rw [if_pos h2]
  · rw [if_neg h2]

theorem climb_some (q : Quadrant) (rl : Nat)
    (hx : q.x < 2 ^ 32) (hy : q.y < 2 ^ 32) :
    ∀ (gap l fuel : Nat), l = rl + gap → l ≤ 30 → gap ≤ fuel →
      (∀ p, 30 - l ≤ p → p < 30 - rl → (q.x.testBit p = true ∧ q.y.testBit p = true)) →
      nextDclimb fuel (truncAt q l) rl = some (truncAt q rl) := by
  intro gap
  induction gap with
  | zero =>
    intro l fuel hl hl30 hfuel hbits
    have hleq : l = rl := by omega
    rw [hleq]
    exact nextDclimb_stop fuel _ rl (by simp [truncAt])
  | succ g ih =>
    intro l fuel hl hl30 hfuel hbits
    have hlv : (truncAt q l).level = l := rfl
    have hlgt : rl < l := by omega
    have hcid : p4est_quadrant_child_id (truncAt q l) = 3 :=
      (child_id_truncAt q l (by omega)).mpr
        (hbits (30 - l) (Nat.le_refl _) (by omega))
    match fuel, hfuel with
    | f + 1, _ =>
      rw [nextDclimb_step f _ rl (by rw [hlv]; omega) hcid,
        parent_truncAt q l (by omega) hl30 hx hy]
      exact ih (l - 1) f (by omega) (by omega) (by omega)
        (fun p h1 h2 => hbits p (by omega) h2)

theorem climb_none (q : Quadrant) (rl : Nat)
    (hx : q.x < 2 ^ 32) (hy : q.y < 2 ^ 32) :
    ∀ (gap l fuel : Nat), l = rl + gap → l ≤ 30 →
      ¬ (∀ p, 30 - l ≤ p → p < 30 - rl → (q.x.testBit p = true ∧ q.y.testBit p = true)) →
      nextDclimb fuel (truncAt q l) rl = none := by
  intro gap
  induction gap with
  | zero =>
    intro l fuel hl hl30 hn
    exact absurd (fun p h1 h2 => absurd h2 (by omega)) hn
  | succ g ih =>
    intro l fuel hl hl30 hn
    have hlv : (truncAt q l).level = l := rfl
    have hlgt : rl < l := by omega
    by_cases hb : q.x.testBit (30 - l) = true ∧ q.y.testBit (30 - l) = true
    · have hcid : p4est_quadrant_child_id (truncAt q l) = 3 :=
        (child_id_truncAt q l (by omega)).mpr hb
      match fuel with
      | 0 => exact nextDclimb_zero_fail _ rl (by rw [hlv]; omega)
      | f + 1 =>
        rw [nextDclimb_step f _ rl (by rw [hlv]; omega) hcid,
          parent_truncAt q l (by omega) hl30 hx hy]
        apply ih (l - 1) f (by omega) (by omega)
        intro hsmall
        apply hn
        intro p h1 h2
        by_cases hp : p = 30 - l
        · rw [hp]
          exact hb
        · exact hsmall p (by omega) h2
    · have hcid : p4est_quadrant_child_id (truncAt q l) ≠ 3 := by
        rw [Ne, child_id_truncAt q l (by omega)]
        exact hb
      exact nextDclimb_fail fuel _ rl (by rw [hlv]; omega) hcid

theorem linear_id_truncAt (q : Quadrant) (rl : Nat)
    (hx : q.x < 2 ^ 32) (hy : q.y < 2 ^ 32) (hrl : rl ≤ 30) :
    p4est_quadrant_linear_id (truncAt q rl) rl = p4est_quadrant_linear_id q rl := by
  rw [linear_id_eq_shift rl (truncAt_x_lt q rl hx) (truncAt_y_lt q rl hy) hrl,
    linear_id_eq_shift rl hx hy hrl]
  apply linidAux_congr
  · intro j hj
    rw [Nat.testBit_shiftRight, Nat.testBit_shiftRight, testBit_truncAt_x,
      decide_eq_true (show 30 - rl ≤ 30 - rl + j by omega), Bool.true_and]
  · intro j hj
    rw [Nat.testBit_shiftRight, Nat.testBit_shiftRight, testBit_truncAt_y,
      decide_eq_true (show 30 - rl ≤ 30 - rl + j by omega), Bool.true_and]

theorem compare_neg_of_id_lt (q r : Quadrant) (m : Nat)
    (hqx : q.x < 2 ^ 32) (hqy : q.y < 2 ^ 32) (hrx : r.x < 2 ^ 32) (hry : r.y < 2 ^ 32)
    (hm : m ≤ 30)
    (hlt : p4est_quadrant_linear_id q m < p4est_quadrant_linear_id r m) :
    p4est_quadrant_compare q r < 0 := by
  have hcne : ¬ (q.x = r.x ∧ q.y = r.y) := by
    intro hc
    rw [p4est_quadrant_linear_id, p4est_quadrant_linear_id, hc.1, hc.2] at hlt
    omega
  rw [compare_lt_iff_pattern q r hqx hqy hrx hry hcne]
  rw [linear_id_eq_shift m hqx hqy hm, linear_id_eq_shift m hrx hry hm] at hlt
  exact (interleave_order_core q.x q.y r.x r.y m hqx hqy hrx hry hm (by omega)).mpr hlt

/-- C5: for all extended quadrants, the bit-tricked successor test
p4est_quadrant_is_next and the level-by-level reference
p4est_quadrant_is_next_D return the same boolean; in particular they agree on
every pair of quadrants of any complete enumeration up to any level. -/
theorem p4est_quadrant_is_next_agrees_with_D :
    ∀ q r : Quadrant,
      q.x < 2 ^ 32 → q.y < 2 ^ 32 → r.x < 2 ^ 32 → r.y < 2 ^ 32 →
      p4est_quadrant_is_extended q = true → p4est_quadrant_is_extended r = true →
      p4est_quadrant_is_next q r = p4est_quadrant_is_next_D q r := by
  intro q r hqx hqy hrx hry heq her
  simp only [p4est_quadrant_is_extended, Bool.and_eq_true, decide_eq_true_eq,
    P4EST_QMAXLEVEL, P4EST_QUADRANT_LEN] at heq her
  obtain ⟨⟨⟨hql, hqax⟩, hqay⟩, -⟩ := heq
  obtain ⟨⟨⟨hrl, hrax⟩, hray⟩, -⟩ := her
  have hqaxb := land_mask_eq_zero_iff.mp hqax
  have hqayb := land_mask_eq_zero_iff.mp hqay
  simp only [p4est_quadrant_is_next, p4est_quadrant_is_next_D]
  by_cases hlv : r.level < q.level
  · rw [if_pos hlv]
    have hstart : truncAt q q.level = q := truncAt_self hqaxb hqayb
    have hmaskbit : ∀ t : Nat, t &&& (P4EST_QUADRANT_LEN r.level - P4EST_QUADRANT_LEN q.level) =
        P4EST_QUADRANT_LEN r.level - P4EST_QUADRANT_LEN q.level ↔
        (∀ p, 30 - q.level ≤ p → p < 30 - r.level → t.testBit p = true) := by
      intro t
      rw [P4EST_QUADRANT_LEN, P4EST_QUADRANT_LEN, land_eq_self_iff]
      constructor
      · intro h p h1 h2
        apply h
        rw [testBit_two_pow_sub_two_pow (by omega)]
        rw [decide_eq_true h1, decide_eq_true h2]
        rfl
      · intro h i hm
        rw [testBit_two_pow_sub_two_pow (by omega)] at hm
        have h1 : 30 - q.level ≤ i ∧ i < 30 - r.level := by
          constructor
          · by_contra hc
            rw [decide_eq_false hc] at hm
            simp at hm
          · by_contra hc
            rw [decide_eq_false hc] at hm
            simp at hm
        exact h i h1.1 h1.2
    by_cases hmask : (∀ p, 30 - q.level ≤ p → p < 30 - r.level →
        (q.x.testBit p = true ∧ q.y.testBit p = true))
    · have hclimb : nextDclimb q.level q r.level = some (truncAt q r.level) := by
        conv_lhs => rw [← hstart]
        exact climb_some q r.level hqx hqy (q.level - r.level) q.level q.level
          (by omega) (by omega) (by omega) hmask
      rw [hclimb]
      have hcondfalse : ¬ (q.x &&& (P4EST_QUADRANT_LEN r.level - P4EST_QUADRANT_LEN q.level) ≠
          P4EST_QUADRANT_LEN r.level - P4EST_QUADRANT_LEN q.level ∨
          q.y &&& (P4EST_QUADRANT_LEN r.level - P4EST_QUADRANT_LEN q.level) ≠
          P4EST_QUADRANT_LEN r.level - P4EST_QUADRANT_LEN q.level) := by
        push_neg
        constructor
        · exact (hmaskbit q.x).mpr (fun p h1 h2 => (hmask p h1 h2).1)
        · exact (hmaskbit q.y).mpr (fun p h1 h2 => (hmask p h1 h2).2)
      rw [if_neg hcondfalse]
      have hlev : (truncAt q r.level).level = r.level := rfl
      simp only [hlev]
      rw [linear_id_truncAt q r.level hqx hqy (by omega)]
      by_cases hid : p4est_quadrant_linear_id q r.level + 1 = p4est_quadrant_linear_id r r.level
      · have hcmp : p4est_quadrant_compare q r < 0 :=
          compare_neg_of_id_lt q r r.level hqx hqy hrx hry (by omega) (by omega)
        rw [if_neg (by omega)]
      · by_cases hcmp0 : 0 ≤ p4est_quadrant_compare q r
        · rw [if_pos hcmp0, decide_eq_false hid]
        · rw [if_neg hcmp0, decide_eq_false hid]
    · have hclimb : nextDclimb q.level q r.level = none := by
        conv_lhs => rw [← hstart]
        exact climb_none q r.level hqx hqy (q.level - r.level) q.level q.level
          (by omega) (by omega) hmask
      rw [hclimb]
      have hcondtrue : (q.x &&& (P4EST_QUADRANT_LEN r.level - P4EST_QUADRANT_LEN q.level) ≠
          P4EST_QUADRANT_LEN r.level - P4EST_QUADRANT_LEN q.level ∨
          q.y &&& (P4EST_QUADRANT_LEN r.level - P4EST_QUADRANT_LEN q.level) ≠
          P4EST_QUADRANT_LEN r.level - P4EST_QUADRANT_LEN q.level) := by
        by_contra hc
        push_neg at hc
        apply hmask
        intro p h1 h2
        exact ⟨(hmaskbit q.x).mp hc.1 p h1 h2, (hmaskbit q.y).mp hc.2 p h1 h2⟩
      rw [if_pos hcondtrue]
      by_cases hcmp0 : 0 ≤ p4est_quadrant_compare q r
      · rw [if_pos hcmp0]
      · rw [if_neg hcmp0]
  · rw [if_neg hlv]
    have hclimb : nextDclimb q.level q r.level = some q :=
      nextDclimb_stop q.level q r.level hlv
    rw [hclimb]
    by_cases hid : p4est_quadrant_linear_id q q.level + 1 = p4est_quadrant_linear_id r q.level
    · have hcmp : p4est_quadrant_compare q r < 0 :=
        compare_neg_of_id_lt q r q.level hqx hqy hrx hry (by omega) (by omega)
      rw [if_neg (by omega)]
    · by_cases hcmp0 : 0 ≤ p4est_quadrant_compare q r
      · rw [if_pos hcmp0, decide_eq_false hid]
      · rw [if_neg hcmp0]


theorem p4est_quadrant_is_next_agrees_with_D_witness :
    p4est_quadrant_is_next (Quadrant.mk 0 0 1) (Quadrant.mk (2 ^ 29) 0 1) =
      p4est_quadrant_is_next_D (Quadrant.mk 0 0 1) (Quadrant.mk (2 ^ 29) 0 1) :=
  p4est_quadrant_is_next_agrees_with_D (Quadrant.mk 0 0 1) (Quadrant.mk (2 ^ 29) 0 1)
    (by norm_num) (by norm_num) (by norm_num) (by norm_num) (by decide) (by decide)

end Claim5

section Claim6

open P4est

theorem pattern_of_toVal_add {a b c : Nat} (ha : a < 2 ^ 32) (hb : b < 2 ^ 32)
    (hsum : a + c < 2 ^ 32) (h : toVal a + (c : Int) = toVal b) : a + c = b := by
  simp only [toVal] at h
  split_ifs at h <;> omega

theorem dvd_of_low_bits_clear {x s : Nat}
    (h : ∀ i, i < s → x.testBit i = false) : 2 ^ s ∣ x := by
  refine ⟨x >>> s, ?_⟩
  conv_lhs => rw [← shiftRight_shiftLeft_of_aligned h]
  rw [Nat.shiftLeft_eq, Nat.mul_comm]

theorem or_two_pow_lt {x k : Nat} (hx : x < 2 ^ 32) (hk : k < 32) :
    x ||| 2 ^ k < 2 ^ 32 := by
  rw [lt_two_pow_iff_high_false]
  intro i hi
  rw [Nat.testBit_or, lt_two_pow_iff_high_false.mp hx i hi, Nat.testBit_two_pow]
  simp
  omega

theorem toVal_add_of_aligned {a k : Nat} (ha : a < 2 ^ 32) (hk : k < 31)
    (hdvd : 2 ^ (k + 1) ∣ a) : toVal (a + 2 ^ k) = toVal a + ((2 ^ k : Nat) : Int) := by
  have hd31 : (2 : Nat) ^ (k + 1) ∣ 2 ^ 31 := pow_dvd_pow 2 (by omega)
  have hd32 : (2 : Nat) ^ (k + 1) ∣ 2 ^ 32 := pow_dvd_pow 2 (by omega)
  have hstep : ∀ N : Nat, 2 ^ (k + 1) ∣ N → a < N → a + 2 ^ (k + 1) ≤ N := by
    intro N hdN haN
    have hsub : 2 ^ (k + 1) ∣ N - a := Nat.dvd_sub' hdN hdvd
    have := Nat.le_of_dvd (by omega) hsub
    omega
  have hkk : (2 : Nat) ^ (k + 1) = 2 ^ k + 2 ^ k := by
    rw [pow_succ]
    omega
  have h1 : a < 2 ^ 31 → a + 2 ^ k < 2 ^ 31 := by
    intro h
    have := hstep (2 ^ 31) hd31 h
    omega
  have h2 : 2 ^ 31 ≤ a → a + 2 ^ k < 2 ^ 32 := by
    intro h
    have := hstep (2 ^ 32) hd32 ha
    omega
  have hknn : (0 : Nat) < 2 ^ k := Nat.pos_pow_of_pos k (by omega)
  simp only [toVal]
  split_ifs with hA hB hB
  · push_cast
    ring
  · omega
  · omega
  · push_cast
    ring

/-- C6 counterexample: a translated tuple passes is_family yet is no
quadrant's children. -/
theorem p4est_quadrant_is_family_children_counterexample :
    (p4est_quadrant_is_extended ⟨2 ^ 29, 0, 1⟩ = true ∧
      p4est_quadrant_is_extended ⟨2 ^ 30, 0, 1⟩ = true ∧
      p4est_quadrant_is_extended ⟨2 ^ 29, 2 ^ 29, 1⟩ = true ∧
      p4est_quadrant_is_extended ⟨2 ^ 30, 2 ^ 29, 1⟩ = true) ∧
    p4est_quadrant_is_family ⟨2 ^ 29, 0, 1⟩ ⟨2 ^ 30, 0, 1⟩
      ⟨2 ^ 29, 2 ^ 29, 1⟩ ⟨2 ^ 30, 2 ^ 29, 1⟩ = true ∧
    ¬ ∃ X : Quadrant, p4est_quadrant_children X =
      (⟨2 ^ 29, 0, 1⟩, ⟨2 ^ 30, 0, 1⟩, ⟨2 ^ 29, 2 ^ 29, 1⟩, ⟨2 ^ 30, 2 ^ 29, 1⟩) := by
  refine ⟨⟨by decide, by decide, by decide, by decide⟩, by decide, ?_⟩
  rintro ⟨X, hX⟩
  obtain ⟨xx, xy, xl⟩ := X
  simp only [p4est_quadrant_children, Prod.mk.injEq, Quadrant.mk.injEq] at hX
  obtain ⟨⟨hx0, hy0, hl0⟩, ⟨hx1, hy1, hl1⟩, h23⟩ := hX
  have hxl : xl = 0 := by omega
  rw [hx0] at hx1
  rw [hxl] at hx1
  norm_num [P4EST_QUADRANT_LEN] at hx1

/-- C6 amended: is_family together with the child-position bits of q0 being
clear is equivalent to the tuple being the children of a quadrant meeting
p4est_quadrant_children's preconditions. -/
theorem p4est_quadrant_is_family_children_characterization
    (q0 q1 q2 q3 : Quadrant)
    (h0x : q0.x < 2 ^ 32) (h0y : q0.y < 2 ^ 32)
    (h1x : q1.x < 2 ^ 32) (h1y : q1.y < 2 ^ 32)
    (h2x : q2.x < 2 ^ 32) (h2y : q2.y < 2 ^ 32)
    (h3x : q3.x < 2 ^ 32) (h3y : q3.y < 2 ^ 32)
    (he0 : p4est_quadrant_is_extended q0 = true) :
    (p4est_quadrant_is_family q0 q1 q2 q3 = true ∧
      q0.x &&& P4EST_QUADRANT_LEN q0.level = 0 ∧
      q0.y &&& P4EST_QUADRANT_LEN q0.level = 0) ↔
    ∃ X : Quadrant, X.x < 2 ^ 32 ∧ X.y < 2 ^ 32 ∧
      p4est_quadrant_is_extended X = true ∧ X.level < P4EST_QMAXLEVEL ∧
      p4est_quadrant_children X = (q0, q1, q2, q3) := by
  obtain ⟨x0, y0, l0⟩ := q0
  obtain ⟨x1, y1, l1⟩ := q1
  obtain ⟨x2, y2, l2⟩ := q2
  obtain ⟨x3, y3, l3⟩ := q3
  simp only at h0x h0y h1x h1y h2x h2y h3x h3y
  constructor
  · rintro ⟨hfam, hbx, hby⟩
    simp only at hbx hby
    rw [p4est_quadrant_is_family] at hfam
    simp only at hfam
    by_cases hguard : l0 = 0 ∨ l0 ≠ l1 ∨ l0 ≠ l2 ∨ l0 ≠ l3
    · rw [if_pos hguard] at hfam
      exact absurd hfam (by simp)
    · rw [if_neg hguard] at hfam
      push_neg at hguard
      obtain ⟨hL0, hL1, hL2, hL3⟩ := hguard
      simp only [Bool.and_eq_true, decide_eq_true_eq] at hfam
      obtain ⟨⟨⟨⟨⟨e1, e2⟩, e3⟩, e4⟩, e5⟩, e6⟩ := hfam
      simp only [p4est_quadrant_is_extended, p4est_quadrant_is_inside_3x3,
        Bool.and_eq_true, decide_eq_true_eq] at he0
      obtain ⟨⟨⟨hlev, halx⟩, haly⟩, h3x3⟩ := he0
      simp only [P4EST_QMAXLEVEL] at hlev
      have hbitx : x0.testBit (30 - l0) = false := by
        rw [← land_two_pow_eq_zero_iff]
        simpa [P4EST_QUADRANT_LEN] using hbx
      have hbity : y0.testBit (30 - l0) = false := by
        rw [← land_two_pow_eq_zero_iff]
        simpa [P4EST_QUADRANT_LEN] using hby
      have hlowx : ∀ i, i < 30 - l0 → x0.testBit i = false := by
        rw [← land_mask_eq_zero_iff]
        simpa [P4EST_QUADRANT_LEN] using halx
      have hlowy : ∀ i, i < 30 - l0 → y0.testBit i = false := by
        rw [← land_mask_eq_zero_iff]
        simpa [P4EST_QUADRANT_LEN] using haly
      have hsumx : x0 + 2 ^ (30 - l0) < 2 ^ 32 := by
        rw [← or_two_pow_eq_add hbitx]
        exact or_two_pow_lt h0x (by omega)
      have hsumy : y0 + 2 ^ (30 - l0) < 2 ^ 32 := by
        rw [← or_two_pow_eq_add hbity]
        exact or_two_pow_lt h0y (by omega)
      have hq1x : x0 + 2 ^ (30 - l0) = x1 :=
        pattern_of_toVal_add h0x h1x hsumx (by simpa [P4EST_QUADRANT_LEN] using e1)
      have hq2y : y0 + 2 ^ (30 - l0) = y2 :=
        pattern_of_toVal_add h0y h2y hsumy (by simpa [P4EST_QUADRANT_LEN] using e4)
      have hq1y : y0 = y1 := toVal_inj h0y h1y e2
      have hq2x : x0 = x2 := toVal_inj h0x h2x e3
      have hq3x : x1 = x3 := toVal_inj h1x h3x e5
      have hq3y : y2 = y3 := toVal_inj h2y h3y e6
      refine ⟨⟨x0, y0, l0 - 1⟩, h0x, h0y, ?_, ?_, ?_⟩
      · simp only [p4est_quadrant_is_extended, p4est_quadrant_is_inside_3x3,
          Bool.and_eq_true, decide_eq_true_eq]
        refine ⟨⟨⟨by simp [P4EST_QMAXLEVEL]; omega, ?_⟩, ?_⟩, h3x3⟩
        · simp only [P4EST_QUADRANT_LEN]
          rw [land_mask_eq_zero_iff]
          intro i hi
          rcases Nat.lt_or_ge i (30 - l0) with h | h
          · exact hlowx i h
          · have : i = 30 - l0 := by omega
            rw [this]
            exact hbitx
        · simp only [P4EST_QUADRANT_LEN]
          rw [land_mask_eq_zero_iff]
          intro i hi
          rcases Nat.lt_or_ge i (30 - l0) with h | h
          · exact hlowy i h
          · have : i = 30 - l0 := by omega
            rw [this]
            exact hbity
      · simp only [P4EST_QMAXLEVEL]
        omega
      · have hlsucc : l0 - 1 + 1 = l0 := by omega
        have horx : x0 ||| P4EST_QUADRANT_LEN l0 = x1 := by
          rw [P4EST_QUADRANT_LEN, or_two_pow_eq_add hbitx]
          exact hq1x
        have hory : y0 ||| P4EST_QUADRANT_LEN l0 = y2 := by
          rw [P4EST_QUADRANT_LEN, or_two_pow_eq_add hbity]
          exact hq2y
        have hl21 : l2 = l1 := hL2.symm.trans hL1
        have hl31 : l3 = l1 := hL3.symm.trans hL1
        simp only [p4est_quadrant_children]
        rw [hlsucc, horx, hory, hq1y, hq2x, hq3x, hq3y, hL1, hl21, hl31]
  · rintro ⟨X, hXx, hXy, hXe, hXl, hchild⟩
    obtain ⟨xx, xy, xl⟩ := X
    simp only at hXx hXy
    simp only [P4EST_QMAXLEVEL] at hXl
    simp only [p4est_quadrant_children, Prod.mk.injEq, Quadrant.mk.injEq] at hchild
    obtain ⟨⟨hx0, hy0, hl0⟩, ⟨hx1, hy1, hl1⟩, ⟨hx2, hy2, hl2⟩, hx3, hy3, hl3⟩ := hchild
    subst hx0 hy0 hl0 hx1 hy1 hl1 hx2 hy2 hl2 hx3 hy3 hl3
    simp only [p4est_quadrant_is_extended, p4est_quadrant_is_inside_3x3,
      Bool.and_eq_true, decide_eq_true_eq] at hXe
    obtain ⟨⟨⟨hXlev, hXax⟩, hXay⟩, hX3⟩ := hXe
    have hlowx : ∀ i, i < 30 - xl → xx.testBit i = false := by
      rw [← land_mask_eq_zero_iff]
      simpa [P4EST_QUADRANT_LEN] using hXax
    have hlowy : ∀ i, i < 30 - xl → xy.testBit i = false := by
      rw [← land_mask_eq_zero_iff]
      simpa [P4EST_QUADRANT_LEN] using hXay
    have hexp : 30 - (xl + 1) = 29 - xl := by omega
    have hbitx : xx.testBit (29 - xl) = false := hlowx _ (by omega)
    have hbity : xy.testBit (29 - xl) = false := hlowy _ (by omega)
    have hdvdx : 2 ^ (29 - xl + 1) ∣ xx := by
      have h30 : 29 - xl + 1 = 30 - xl := by omega
      rw [h30]
      exact dvd_of_low_bits_clear hlowx
    have hdvdy : 2 ^ (29 - xl + 1) ∣ xy := by
      have h30 : 29 - xl + 1 = 30 - xl := by omega
      rw [h30]
      exact dvd_of_low_bits_clear hlowy
    refine ⟨?_, ?_, ?_⟩
    · rw [p4est_quadrant_is_family]
      simp only
      rw [if_neg (by simp)]
      simp only [Bool.and_eq_true, decide_eq_true_eq]
      refine ⟨⟨⟨⟨⟨?_, trivial⟩, trivial⟩, ?_⟩, trivial⟩, trivial⟩
      · simp only [P4EST_QUADRANT_LEN, hexp]
        rw [or_two_pow_eq_add hbitx]
        exact (toVal_add_of_aligned hXx (by omega) hdvdx).symm
      · simp only [P4EST_QUADRANT_LEN, hexp]
        rw [or_two_pow_eq_add hbity]
        exact (toVal_add_of_aligned hXy (by omega) hdvdy).symm
    · simp only [P4EST_QUADRANT_LEN, hexp]
      rw [land_two_pow_eq_zero_iff]
      exact hbitx
    · simp only [P4EST_QUADRANT_LEN, hexp]
      rw [land_two_pow_eq_zero_iff]
      exact hbity

theorem p4est_quadrant_is_family_children_characterization_witness :
    (p4est_quadrant_is_family ⟨0, 0, 1⟩ ⟨2 ^ 29, 0, 1⟩ ⟨0, 2 ^ 29, 1⟩
        ⟨2 ^ 29, 2 ^ 29, 1⟩ = true ∧
      (0 : Nat) &&& P4EST_QUADRANT_LEN 1 = 0 ∧
      (0 : Nat) &&& P4EST_QUADRANT_LEN 1 = 0) ↔
    ∃ X : Quadrant, X.x < 2 ^ 32 ∧ X.y < 2 ^ 32 ∧
      p4est_quadrant_is_extended X = true ∧ X.level < P4EST_QMAXLEVEL ∧
      p4est_quadrant_children X =
        (⟨0, 0, 1⟩, ⟨2 ^ 29, 0, 1⟩, ⟨0, 2 ^ 29, 1⟩, ⟨2 ^ 29, 2 ^ 29, 1⟩) :=
  p4est_quadrant_is_family_children_characterization
    ⟨0, 0, 1⟩ ⟨2 ^ 29, 0, 1⟩ ⟨0, 2 ^ 29, 1⟩ ⟨2 ^ 29, 2 ^ 29, 1⟩
    (by norm_num) (by norm_num) (by norm_num) (by norm_num)
    (by norm_num) (by norm_num) (by norm_num) (by norm_num)
    (by decide)

end Claim6

section Claim4

open P4est

theorem truncAt_level (q : Quadrant) (l : Nat) : (truncAt q l).level = l := rfl

theorem testBit_eq_of_xor_false {a b : Nat} {i : Nat}
    (h : (a ^^^ b).testBit i = false) : a.testBit i = b.testBit i := by
  rw [Nat.testBit_xor] at h
  cases hx : a.testBit i <;> cases hy : b.testBit i <;>
    simp [hx, hy] at h ⊢

theorem testBit_ne_of_xor_true {a b : Nat} {i : Nat}
    (h : (a ^^^ b).testBit i = true) : a.testBit i ≠ b.testBit i := by
  rw [Nat.testBit_xor] at h
  cases hx : a.testBit i <;> cases hy : b.testBit i <;>
    simp [hx, hy] at h ⊢

theorem toLevelLoop_noop (fuel : Nat) (q : Quadrant) (t : Nat)
    (h : ¬ t < q.level) : toLevelLoop fuel q t = q := by
  cases fuel <;> simp [toLevelLoop, h]

theorem toLevelLoop_truncAt (q : Quadrant) (fuel : Nat)
    (hx : q.x < 2 ^ 32) (hy : q.y < 2 ^ 32) :
    ∀ l t : Nat, l ≤ 30 → t ≤ l → l - t ≤ fuel →
      toLevelLoop fuel (truncAt q l) t = truncAt q t := by
  induction fuel with
  | zero =>
    intro l t hl ht hf
    have : l = t := by omega
    rw [this, toLevelLoop]
  | succ f ih =>
    intro l t hl ht hf
    rw [toLevelLoop]
    by_cases hlt : t < (truncAt q l).level
    · rw [if_pos hlt]
      rw [truncAt_level] at hlt
      rw [parent_truncAt q l (by omega) hl hx hy]
      exact ih (l - 1) t (by omega) (by omega) (by omega)
    · rw [if_neg hlt]
      rw [truncAt_level] at hlt
      have : l = t := by omega
      rw [this]

theorem toLevelLoop_from_self (q : Quadrant) (fuel t : Nat)
    (hax : ∀ i, i < 30 - q.level → q.x.testBit i = false)
    (hay : ∀ i, i < 30 - q.level → q.y.testBit i = false)
    (hx : q.x < 2 ^ 32) (hy : q.y < 2 ^ 32)
    (hl : q.level ≤ 30) (ht : t ≤ q.level) (hf : q.level - t ≤ fuel) :
    toLevelLoop fuel q t = truncAt q t := by
  conv_lhs => rw [← truncAt_self hax hay]
  exact toLevelLoop_truncAt q fuel hx hy q.level t hl ht hf

theorem is_equal_truncAt_of_agree (q1 q2 : Quadrant) (j : Nat)
    (hagx : ∀ i, 30 - j ≤ i → q1.x.testBit i = q2.x.testBit i)
    (hagy : ∀ i, 30 - j ≤ i → q1.y.testBit i = q2.y.testBit i) :
    p4est_quadrant_is_equal (truncAt q1 j) (truncAt q2 j) = true := by
  have hxeq : (truncAt q1 j).x = (truncAt q2 j).x := by
    apply Nat.eq_of_testBit_eq
    intro i
    rw [testBit_truncAt_x, testBit_truncAt_x]
    by_cases h : 30 - j ≤ i
    · rw [hagx i h]
    · rw [decide_eq_false h]
      simp
  have hyeq : (truncAt q1 j).y = (truncAt q2 j).y := by
    apply Nat.eq_of_testBit_eq
    intro i
    rw [testBit_truncAt_y, testBit_truncAt_y]
    by_cases h : 30 - j ≤ i
    · rw [hagy i h]
    · rw [decide_eq_false h]
      simp
  simp [p4est_quadrant_is_equal, hxeq, hyeq, truncAt_level]

theorem is_equal_truncAt_false_x (q1 q2 : Quadrant) (j p : Nat)
    (hp : 30 - j ≤ p) (hne : q1.x.testBit p ≠ q2.x.testBit p) :
    p4est_quadrant_is_equal (truncAt q1 j) (truncAt q2 j) = false := by
  have hxne : (truncAt q1 j).x ≠ (truncAt q2 j).x := by
    intro heq
    have := congrArg (fun t => t.testBit p) heq
    simp only [testBit_truncAt_x, decide_eq_true hp, Bool.true_and] at this
    exact hne this
  simp [p4est_quadrant_is_equal, hxne]

theorem is_equal_truncAt_false_y (q1 q2 : Quadrant) (j p : Nat)
    (hp : 30 - j ≤ p) (hne : q1.y.testBit p ≠ q2.y.testBit p) :
    p4est_quadrant_is_equal (truncAt q1 j) (truncAt q2 j) = false := by
  have hyne : (truncAt q1 j).y ≠ (truncAt q2 j).y := by
    intro heq
    have := congrArg (fun t => t.testBit p) heq
    simp only [testBit_truncAt_y, decide_eq_true hp, Bool.true_and] at this
    exact hne this
  simp [p4est_quadrant_is_equal, hyne]

theorem ncaDLoop2_eq (fuel : Nat) (s1 s2 : Quadrant)
    (h : p4est_quadrant_is_equal s1 s2 = true) :
    ncaDLoop2 fuel s1 s2 = some s1 := by
  rw [ncaDLoop2.eq_def, if_pos h]

theorem ncaDLoop2_step (f : Nat) (s1 s2 : Quadrant)
    (h : p4est_quadrant_is_equal s1 s2 = false) :
    ncaDLoop2 (f + 1) s1 s2 =
      ncaDLoop2 f (p4est_quadrant_parent s1) (p4est_quadrant_parent s2) := by
  rw [ncaDLoop2.eq_def]
  rw [if_neg (by rw [h]; exact Bool.false_ne_true)]

theorem ncaLoop_run (q1 q2 : Quadrant) (lstar M : Nat) (hM : M ≤ 30)
    (h1x : q1.x < 2 ^ 32) (h1y : q1.y < 2 ^ 32)
    (h2x : q2.x < 2 ^ 32) (h2y : q2.y < 2 ^ 32)
    (heq : p4est_quadrant_is_equal (truncAt q1 lstar) (truncAt q2 lstar) = true)
    (hne : ∀ j, lstar < j → j ≤ M →
      p4est_quadrant_is_equal (truncAt q1 j) (truncAt q2 j) = false) :
    ∀ fuel j, lstar ≤ j → j ≤ M → j - lstar ≤ fuel →
      ncaDLoop2 fuel (truncAt q1 j) (truncAt q2 j) = some (truncAt q1 lstar) := by
  intro fuel
  induction fuel with
  | zero =>
    intro j hj1 hj2 hf
    have : j = lstar := by omega
    rw [this, ncaDLoop2_eq _ _ _ heq]
  | succ f ih =>
    intro j hj1 hj2 hf
    by_cases hjl : j = lstar
    · rw [hjl, ncaDLoop2_eq _ _ _ heq]
    · rw [ncaDLoop2_step _ _ _ (hne j (by omega) hj2),
        parent_truncAt q1 j (by omega) (by omega) h1x h1y,
        parent_truncAt q2 j (by omega) (by omega) h2x h2y]
      exact ih (j - 1) (by omega) (by omega) (by omega)

/-- C4: for all pairs of extended quadrants of the same tree, the closed-form
nearest common ancestor and the iterative reference variant compute the same
quadrant (equal coordinates and equal level). -/
theorem p4est_nearest_common_ancestor_agrees_with_D (q1 q2 : Quadrant)
    (h1x : q1.x < 2 ^ 32) (h1y : q1.y < 2 ^ 32)
    (h2x : q2.x < 2 ^ 32) (h2y : q2.y < 2 ^ 32)
    (he1 : p4est_quadrant_is_extended q1 = true)
    (he2 : p4est_quadrant_is_extended q2 = true)
    (hst : sameTree q1 q2) :
    p4est_nearest_common_ancestor_D q1 q2 =
      some (p4est_nearest_common_ancestor q1 q2) := by
  obtain ⟨hstx, hsty⟩ := hst
  simp only [p4est_quadrant_is_extended, Bool.and_eq_true, decide_eq_true_eq] at he1 he2
  obtain ⟨⟨⟨hl1, ha1x⟩, ha1y⟩, h3x3a⟩ := he1
  obtain ⟨⟨⟨hl2, ha2x⟩, ha2y⟩, h3x3b⟩ := he2
  simp only [P4EST_QMAXLEVEL] at hl1 hl2
  have hal1x : ∀ i, i < 30 - q1.level → q1.x.testBit i = false := by
    rw [← land_mask_eq_zero_iff]
    simpa [P4EST_QUADRANT_LEN] using ha1x
  have hal1y : ∀ i, i < 30 - q1.level → q1.y.testBit i = false := by
    rw [← land_mask_eq_zero_iff]
    simpa [P4EST_QUADRANT_LEN] using ha1y
  have hal2x : ∀ i, i < 30 - q2.level → q2.x.testBit i = false := by
    rw [← land_mask_eq_zero_iff]
    simpa [P4EST_QUADRANT_LEN] using ha2x
  have hal2y : ∀ i, i < 30 - q2.level → q2.y.testBit i = false := by
    rw [← land_mask_eq_zero_iff]
    simpa [P4EST_QUADRANT_LEN] using ha2y
  set mc := (q1.x ^^^ q2.x) ||| (q1.y ^^^ q2.y) with hmc
  set K := (SC_LOG2_32 mc + 1).toNat with hKdef
  set m := min q1.level q2.level with hmdef
  set lstar := min (30 - K) m with hlstardef
  have hm1 : m ≤ q1.level := by
    rw [hmdef]
    exact min_le_left _ _
  have hm2 : m ≤ q2.level := by
    rw [hmdef]
    exact min_le_right _ _
  have hm3 : m = q1.level ∨ m = q2.level := by
    rw [hmdef]
    rcases le_total q1.level q2.level with h | h
    · exact Or.inl (min_eq_left h)
    · exact Or.inr (min_eq_right h)
  have hls1 : lstar ≤ 30 - K := by
    rw [hlstardef]
    exact min_le_left _ _
  have hls2 : lstar ≤ m := by
    rw [hlstardef]
    exact min_le_right _ _
  have hls3 : lstar = 30 - K ∨ lstar = m := by
    rw [hlstardef]
    rcases le_total (30 - K) m with h | h
    · exact Or.inl (min_eq_left h)
    · exact Or.inr (min_eq_right h)
  -- bits of both xors (hence of mc) at positions >= 30 vanish: same tree
  have hxor_x_high : ∀ i, 30 ≤ i → (q1.x ^^^ q2.x).testBit i = false := by
    intro i hi
    rw [Nat.testBit_xor]
    have h1 := congrArg (fun t => t.testBit (i - 30)) hstx
    simp only [Nat.testBit_shiftRight] at h1
    have he : 30 + (i - 30) = i := by omega
    rw [he] at h1
    rw [h1]
    simp
  have hxor_y_high : ∀ i, 30 ≤ i → (q1.y ^^^ q2.y).testBit i = false := by
    intro i hi
    rw [Nat.testBit_xor]
    have h1 := congrArg (fun t => t.testBit (i - 30)) hsty
    simp only [Nat.testBit_shiftRight] at h1
    have he : 30 + (i - 30) = i := by omega
    rw [he] at h1
    rw [h1]
    simp
  have hmc_high : ∀ i, 30 ≤ i → mc.testBit i = false := by
    intro i hi
    rw [hmc, Nat.testBit_or, hxor_x_high i hi, hxor_y_high i hi]
    rfl
  have hmclt : mc < 2 ^ 30 := lt_two_pow_iff_high_false.mpr hmc_high
  have hK30 : K ≤ 30 := by
    rw [hKdef, SC_LOG2_32]
    split
    · simp
    · rename_i h0
      have := log2_lt_of_lt_two_pow h0 hmclt
      omega
  -- bits at positions >= K agree on both axes
  have hmc_ge : ∀ i, K ≤ i → mc.testBit i = false := by
    intro i hi
    by_cases h0 : mc = 0
    · rw [h0]
      simp
    · have hKlog : K = mc.log2 + 1 := by
        rw [hKdef, SC_LOG2_32, if_neg h0]
        rfl
      exact testBit_false_of_log2_lt (by omega)
  have hagx : ∀ i, K ≤ i → q1.x.testBit i = q2.x.testBit i := by
    intro i hi
    apply testBit_eq_of_xor_false
    have := hmc_ge i hi
    rw [hmc, Nat.testBit_or] at this
    exact (Bool.or_eq_false_iff.mp this).1
  have hagy : ∀ i, K ≤ i → q1.y.testBit i = q2.y.testBit i := by
    intro i hi
    apply testBit_eq_of_xor_false
    have := hmc_ge i hi
    rw [hmc, Nat.testBit_or] at this
    exact (Bool.or_eq_false_iff.mp this).2
  -- bits between K and 30 - lstar vanish in q1 (using both alignments)
  have hzero1x : ∀ i, K ≤ i → i < 30 - lstar → q1.x.testBit i = false := by
    intro i hiK hil
    have him : i < 30 - m := by omega
    by_cases h1 : i < 30 - q1.level
    · exact hal1x i h1
    · rw [hagx i hiK]
      exact hal2x i (by omega)
  have hzero1y : ∀ i, K ≤ i → i < 30 - lstar → q1.y.testBit i = false := by
    intro i hiK hil
    have him : i < 30 - m := by omega
    by_cases h1 : i < 30 - q1.level
    · exact hal1y i h1
    · rw [hagy i hiK]
      exact hal2y i (by omega)
  -- the closed form is the truncation of q1 at level lstar
  have hnca : p4est_nearest_common_ancestor q1 q2 = truncAt q1 lstar := by
    rw [p4est_nearest_common_ancestor, truncAt]
    simp only [← hmc, ← hKdef]
    have hxcomp : q1.x &&& not32 (2 ^ K - 1) = (q1.x >>> (30 - lstar)) <<< (30 - lstar) := by
      apply Nat.eq_of_testBit_eq
      intro i
      rw [Nat.testBit_and, testBit_not32, Nat.testBit_two_pow_sub_one,
        Nat.testBit_shiftLeft]
      by_cases hi32 : i < 32
      · by_cases hiK : i < K
        · rw [decide_eq_true hi32, decide_eq_true hiK,
            decide_eq_false (show ¬ 30 - lstar ≤ i by omega)]
          simp
        · rw [decide_eq_true hi32, decide_eq_false hiK]
          by_cases hil : 30 - lstar ≤ i
          · rw [decide_eq_true hil, Nat.testBit_shiftRight]
            have he : 30 - lstar + (i - (30 - lstar)) = i := by omega
            rw [he]
            simp
          · rw [decide_eq_false hil, hzero1x i (by omega) (by omega)]
            simp
      · have h1 : q1.x.testBit i = false :=
          Nat.testBit_lt_two_pow (Nat.lt_of_lt_of_le h1x
            (Nat.pow_le_pow_right (by omega) (by omega)))
        have he : 30 - lstar + (i - (30 - lstar)) = i := by omega
        rw [h1, Nat.testBit_shiftRight, he, h1]
        simp
    have hycomp : q1.y &&& not32 (2 ^ K - 1) = (q1.y >>> (30 - lstar)) <<< (30 - lstar) := by
      apply Nat.eq_of_testBit_eq
      intro i
      rw [Nat.testBit_and, testBit_not32, Nat.testBit_two_pow_sub_one,
        Nat.testBit_shiftLeft]
      by_cases hi32 : i < 32
      · by_cases hiK : i < K
        · rw [decide_eq_true hi32, decide_eq_true hiK,
            decide_eq_false (show ¬ 30 - lstar ≤ i by omega)]
          simp
        · rw [decide_eq_true hi32, decide_eq_false hiK]
          by_cases hil : 30 - lstar ≤ i
          · rw [decide_eq_true hil, Nat.testBit_shiftRight]
            have he : 30 - lstar + (i - (30 - lstar)) = i := by omega
            rw [he]
            simp
          · rw [decide_eq_false hil, hzero1y i (by omega) (by omega)]
            simp
      · have h1 : q1.y.testBit i = false :=
          Nat.testBit_lt_two_pow (Nat.lt_of_lt_of_le h1y
            (Nat.pow_le_pow_right (by omega) (by omega)))
        have he : 30 - lstar + (i - (30 - lstar)) = i := by omega
        rw [h1, Nat.testBit_shiftRight, he, h1]
        simp
    have hlev : (min ((P4EST_MAXLEVEL : Int) - (K : Int))
        (min (q1.level : Int) (q2.level : Int))).toNat = lstar := by
      have hc1 : min ((q1.level : Int)) ((q2.level : Int)) = ((m : Nat) : Int) := by
        rw [hmdef, Nat.cast_min]
      have hc2 : ((P4EST_MAXLEVEL : Int) - (K : Int)) = (((30 - K : Nat)) : Int) := by
        simp only [P4EST_MAXLEVEL]
        omega
      rw [hc1, hc2, ← Nat.cast_min, ← hlstardef]
      exact Int.toNat_natCast lstar
    rw [Quadrant.mk.injEq]
    exact ⟨hxcomp, hycomp, hlev⟩
  -- equality of the two truncations at lstar
  have heq : p4est_quadrant_is_equal (truncAt q1 lstar) (truncAt q2 lstar) = true := by
    apply is_equal_truncAt_of_agree
    · intro i hi
      exact hagx i (by omega)
    · intro i hi
      exact hagy i (by omega)
  -- strict difference at every level above lstar (but at most m)
  have hm29 : m ≤ 29 := by omega
  have hne : ∀ j, lstar < j → j ≤ m →
      p4est_quadrant_is_equal (truncAt q1 j) (truncAt q2 j) = false := by
    intro j hj1 hj2
    have hmc0 : mc ≠ 0 := by
      intro h0
      have hK0 : K = 0 := by
        rw [hKdef, SC_LOG2_32, if_pos h0]
        rfl
      omega
    have hKlog : K = mc.log2 + 1 := by
      rw [hKdef, SC_LOG2_32, if_neg hmc0]
      rfl
    have hbit : mc.testBit mc.log2 = true := testBit_log2_self hmc0
    have hp : 30 - j ≤ mc.log2 := by omega
    rw [hmc, Nat.testBit_or, Bool.or_eq_true] at hbit
    rcases hbit with hbx | hby
    · exact is_equal_truncAt_false_x q1 q2 j mc.log2 hp (testBit_ne_of_xor_true hbx)
    · exact is_equal_truncAt_false_y q1 q2 j mc.log2 hp (testBit_ne_of_xor_true hby)
  -- assemble the iterative computation
  rw [p4est_nearest_common_ancestor_D]
  have hs1 : toLevelLoop q1.level q1 q2.level = truncAt q1 m := by
    rcases le_or_lt q1.level q2.level with h | h
    · rw [toLevelLoop_noop _ _ _ (by omega)]
      have hmeq : m = q1.level := by omega
      rw [hmeq]
      exact (truncAt_self hal1x hal1y).symm
    · have hmeq : m = q2.level := by omega
      rw [hmeq]
      exact toLevelLoop_from_self q1 q1.level q2.level hal1x hal1y h1x h1y
        (by omega) (by omega) (by omega)
  rw [hs1, truncAt_level]
  have hs2 : toLevelLoop q2.level q2 m = truncAt q2 m := by
    rcases le_or_lt q2.level q1.level with h | h
    · rw [toLevelLoop_noop _ _ _ (by omega)]
      have hmeq : m = q2.level := by omega
      rw [hmeq]
      exact (truncAt_self hal2x hal2y).symm
    · exact toLevelLoop_from_self q2 q2.level m hal2x hal2y h2x h2y
        (by omega) (by omega) (by omega)
  rw [hs2, hnca]
  exact ncaLoop_run q1 q2 lstar m (by omega) h1x h1y h2x h2y heq hne m m
    (by omega) (by omega) (by omega)

theorem p4est_nearest_common_ancestor_agrees_with_D_witness :
    p4est_nearest_common_ancestor_D ⟨2 ^ 29, 0, 1⟩ ⟨2 ^ 29, 2 ^ 28, 2⟩ =
      some (p4est_nearest_common_ancestor ⟨2 ^ 29, 0, 1⟩ ⟨2 ^ 29, 2 ^ 28, 2⟩) :=
  p4est_nearest_common_ancestor_agrees_with_D ⟨2 ^ 29, 0, 1⟩ ⟨2 ^ 29, 2 ^ 28, 2⟩
    (by norm_num) (by norm_num) (by norm_num) (by norm_num)
    (by decide) (by decide) ⟨by decide, by decide⟩

end Claim4
